import Mathlib

/-!
# Normalization functionals of `torch::nn::functional` and the options structs

A shallow embedding of

* `src/torch/csrc/api/include/torch/nn/functional/normalization.h`
  (`normalize`, `layer_norm`, `local_response_norm`), and
* `src/torch/csrc/api/include/torch/nn/options/activation.h`
  (`MultiheadAttentionOptions`).

Tensors are dense row-major arrays: a list of sizes and the flat list of the
elements.  Scalars are the elements of an ordered field (exact arithmetic, so the
development is executable over `ℚ`); the transcendental scalar kernels of the
array engine (`pow`, `sqrt`) are the fields of an `Engine` the functionals
take as a parameter.
-/

namespace Torch

/-! ## Tensors -/

/-- A dense tensor: its shape and its elements in row-major order. -/
structure Tensor (α : Type) where
  sizes : List Nat
  data : List α
  deriving DecidableEq, Repr

/-- The errors the functionals and the engine primitives can raise. -/
inductive TorchError where
  /-- The failure of `TORCH_CHECK(dim >= 3, ...)`: "Expected 3D or higher dimensionality input (got dim dimensions)". -/
  | dimensionality (dim : Nat)
  /-- An axis index outside `[-rank, rank - 1]`. -/
  | dimOutOfRange (dim : Int) (rank : Nat)
  /-- A malformed padding list, or padding that leaves a negative extent. -/
  | badPadding
  /-- A pooling kernel that is not positive, or an input of the wrong rank for the pooling. -/
  | badPooling
  /-- A `view` whose target shape does not have the element count of the tensor. -/
  | badView
  /-- Elementwise arithmetic on tensors of different shapes. -/
  | shapeMismatch
  deriving DecidableEq, Repr

deriving instance DecidableEq for Except

/-- Row-major offset of a multi-index in a tensor of the given shape. -/
def ravel : List Nat → List Nat → Nat
  | _ :: ss, i :: is => i * ss.prod + ravel ss is
  | _, _ => 0

/-- The multi-index of a row-major offset in a tensor of the given shape. -/
def unravel : List Nat → Nat → List Nat
  | [], _ => []
  | s :: ss, k => (k / ss.prod) % s :: unravel ss (k % ss.prod)

/-- A multi-index addresses an element of a tensor of the given shape. -/
def ValidIdx : List Nat → List Nat → Prop
  | [], [] => True
  | s :: ss, i :: is => i < s ∧ ValidIdx ss is
  | _, _ => False

instance ValidIdx.instDecidable : (sizes idx : List Nat) → Decidable (ValidIdx sizes idx)
  | [], [] => isTrue trivial
  | s :: ss, i :: is =>
    match Nat.decLt i s, ValidIdx.instDecidable ss is with
    | isTrue h, isTrue h2 => isTrue ⟨h, h2⟩
    | isFalse h, _ => isFalse (fun hh => h hh.1)
    | _, isFalse h => isFalse (fun hh => h hh.2)
  | [], _ :: _ => isFalse (fun h => h)
  | _ :: _, [] => isFalse (fun h => h)

namespace Tensor

variable {α : Type}

/-- The rank, `Tensor::dim()`. -/
def dim (t : Tensor α) : Nat := t.sizes.length

/-- The element count, `Tensor::numel()`. -/
def numel (t : Tensor α) : Nat := t.sizes.prod

/-- The stored elements are exactly those the shape asks for. -/
def WF (t : Tensor α) : Prop := t.data.length = t.sizes.prod

instance (t : Tensor α) : Decidable t.WF := Nat.decEq _ _

/-- The element at a multi-index (`0` outside the storage). -/
def elem [Zero α] (t : Tensor α) (idx : List Nat) : α :=
  t.data.getD (ravel t.sizes idx) 0

/-- The tensor of the given shape whose element at each multi-index is `f idx`. -/
def ofFn (sizes : List Nat) (f : List Nat → α) : Tensor α :=
  ⟨sizes, (List.range sizes.prod).map (fun k => f (unravel sizes k))⟩

end Tensor


/-! ## The array engine

The primitives below belong to the array engine (ATen), whose code is outside the
two files embedded here.  They are modelled from their contract in the
specification, each at the arguments the functionals pass. -/

/-- Modelled from the spec: the engine's scalar kernels that leave the field
operations, the elementwise power behind `Tensor::pow` and `Tensor::norm` and the
square root behind the fused layer normalization.  They are missing from the
sources and are taken as a parameter. -/
structure Engine (α : Type) where
  pow : α → α → α
  sqrt : α → α

/-- Modelled from the spec: `at::maybe_wrap_dim`, missing from the sources: an axis index
in `[-rank, rank - 1]` counts from the end when negative; a 0-dimensional tensor is
wrapped as if it had rank 1. -/
def wrapDim (dim : Int) (rank : Nat) : Except TorchError Nat :=
  let r : Int := max (rank : Int) 1
  if -r ≤ dim ∧ dim < r then .ok (if dim < 0 then dim + r else dim).toNat
  else .error (.dimOutOfRange dim rank)

/-- Modelled from the spec: the index a broadcast ("broadcasting expansion") reads at: an
axis of extent 1 is read at position 0. -/
def bcastIdx (sizes idx : List Nat) : List Nat :=
  List.zipWith (fun s i => if s = 1 then 0 else i) sizes idx

/-- The pairs (before, after) of a flat padding list, innermost axis first. -/
def padPairs : List Int → Option (List (Int × Int))
  | [] => some []
  | l :: r :: rest => (padPairs rest).map (fun ps => (l, r) :: ps)
  | [_] => none

/-- The offsets inside a pooling window with the given kernel extents. -/
def offsets : List Nat → List (List Nat)
  | [] => [[]]
  | k :: ks => (List.range k).flatMap (fun i => (offsets ks).map (fun o => i :: o))

/-- Modelled from the spec: the Lp-norm of a vector, "the p-th root of the sum of
|element|^p" (glossary), over the engine's power; the reduction kernel is missing from the
sources. -/
def vnorm {α : Type} [LinearOrderedField α] (E : Engine α) (p : α) (xs : List α) : α :=
  E.pow ((xs.map (fun x => E.pow |x| p)).sum) (1 / p)

namespace Tensor

variable {α : Type} [LinearOrderedField α]

/-- Modelled from the spec: elementwise arithmetic of the engine on two tensors of one
shape, missing from the sources (the functionals only ever combine tensors of one
shape; broadcasting of different shapes is reported as an error). -/
def zipSame (f : α → α → α) (a b : Tensor α) : Except TorchError (Tensor α) :=
  if a.sizes = b.sizes then .ok (ofFn a.sizes (fun idx => f (a.elem idx) (b.elem idx)))
  else .error .shapeMismatch

/-- Modelled from the spec: elementwise `Tensor::mul(const Tensor&)`, missing from the sources. -/
def mul (a b : Tensor α) : Except TorchError (Tensor α) := zipSame (fun x y => x * y) a b

/-- Modelled from the spec: elementwise `operator/(const Tensor&, const Tensor&)`, missing
from the sources. -/
def div (a b : Tensor α) : Except TorchError (Tensor α) := zipSame (fun x y => x / y) a b

/-- Modelled from the spec: `torch::div_out(out, a, b)`, "an in-place `divide_into`":
the quotient is written into `out` (which takes the shape of the quotient) and `out`
is returned; the value is the new content of `out`. -/
def div_out (_out a b : Tensor α) : Except TorchError (Tensor α) := div a b

/-- Modelled from the spec: elementwise `Tensor::mul(Scalar)`, missing from the sources. -/
def mul_scalar (t : Tensor α) (c : α) : Tensor α := ofFn t.sizes (fun idx => t.elem idx * c)

/-- Modelled from the spec: elementwise `Tensor::add(Scalar)`, missing from the sources. -/
def add_scalar (t : Tensor α) (c : α) : Tensor α := ofFn t.sizes (fun idx => t.elem idx + c)

/-- Modelled from the spec: elementwise `Tensor::pow(Scalar)`, missing from the sources,
over the engine's power. -/
def pow (E : Engine α) (t : Tensor α) (e : α) : Tensor α :=
  ofFn t.sizes (fun idx => E.pow (t.elem idx) e)

/-- Modelled from the spec: elementwise `Tensor::clamp_min(Scalar)`, missing from the
sources: every element is raised to at least `m`. -/
def clamp_min (t : Tensor α) (m : α) : Tensor α := ofFn t.sizes (fun idx => max (t.elem idx) m)

/-- Modelled from the spec: `Tensor::unsqueeze(dim)`, missing from the sources: a new axis
of extent 1 at position `d`; the storage is shared. -/
def unsqueeze (t : Tensor α) (d : Nat) : Tensor α :=
  ⟨t.sizes.take d ++ 1 :: t.sizes.drop d, t.data⟩

/-- Modelled from the spec: `Tensor::squeeze(dim)`, missing from the sources: axis `d` is
removed when its extent is 1. -/
def squeeze (t : Tensor α) (d : Nat) : Tensor α :=
  if t.sizes.get? d = some 1 then ⟨t.sizes.eraseIdx d, t.data⟩ else t

/-- Modelled from the spec: `Tensor::view(shape)`, missing from the sources: the same
storage under a new shape of the same element count; at most one entry is `-1` and
stands for the quotient of the element count by the product of the other entries. -/
def view (t : Tensor α) (shape : List Int) : Except TorchError (Tensor α) :=
  let known := ((shape.filter (fun s => s ≠ -1)).map Int.toNat).prod
  let sizes := shape.map (fun s => if s = -1 then t.numel / known else s.toNat)
  if (shape.filter (fun s => s = -1)).length ≤ 1 ∧ shape.all (fun s => decide (-1 ≤ s))
      ∧ sizes.prod = t.numel then
    .ok ⟨sizes, t.data⟩
  else .error .badView

/-- Modelled from the spec: `detail::pad(input, pad, torch::kConstant, value)`
(`torch/nn/functional/padding.h`, missing from the sources): `pad` lists the amounts
(before, after) from the last axis backwards; a negative amount crops. -/
def pad (t : Tensor α) (pad : List Int) (value : α) : Except TorchError (Tensor α) :=
  match padPairs pad with
  | none => .error .badPadding
  | some pairs =>
    if t.dim < pairs.length then .error .badPadding else
    let axisPads := List.replicate (t.dim - pairs.length) ((0 : Int), (0 : Int)) ++ pairs.reverse
    let ext := List.zipWith (fun (s : Nat) (p : Int × Int) => (s : Int) + p.1 + p.2) t.sizes axisPads
    if ext.any (fun e => decide (e < 0)) then .error .badPadding else
    .ok (ofFn (ext.map Int.toNat) (fun idx =>
      let src := List.zipWith (fun (i : Nat) (p : Int × Int) => (i : Int) - p.1) idx axisPads
      if (List.zipWith (fun (j : Int) (s : Nat) => decide (0 ≤ j ∧ j < (s : Int))) src t.sizes).all id
      then t.elem (src.map Int.toNat) else value))

/-- Modelled from the spec: average pooling over the last `nd` axes, at the arguments of
the calls in `local_response_norm`: stride 1, no padding, `ceil_mode = false`,
`count_include_pad = true`, no `divisor_override`.  Each output element is the sum over
its window divided by the volume of the kernel. -/
def avgPool (nd : Nat) (t : Tensor α) (kernel : List Int) : Except TorchError (Tensor α) :=
  if kernel.length ≠ nd ∨ kernel.any (fun k => decide (k ≤ 0)) ∨ ¬ (t.dim = nd + 1 ∨ t.dim = nd + 2) then
    .error .badPooling
  else
    let ks := kernel.map Int.toNat
    let lead := t.dim - nd
    let sizes := t.sizes.take lead ++ List.zipWith (fun s k => s + 1 - k) (t.sizes.drop lead) ks
    .ok (ofFn sizes (fun idx =>
      ((offsets ks).map (fun o =>
          t.elem (idx.take lead ++ List.zipWith (fun i j => i + j) (idx.drop lead) o))).sum
        / ((ks.prod : Nat) : α)))

/-- Modelled from the spec: the call
`detail::avg_pool2d(input, kernel_size, 1, 0, false, true, c10::nullopt)`
(`torch/nn/functional/pooling.h`, missing from the sources). -/
def avg_pool2d (t : Tensor α) (kernel_size : Int × Int) : Except TorchError (Tensor α) :=
  avgPool 2 t [kernel_size.1, kernel_size.2]

/-- Modelled from the spec: the call
`detail::avg_pool3d(input, kernel_size, 1, 0, false, true, c10::nullopt)`
(`torch/nn/functional/pooling.h`, missing from the sources). -/
def avg_pool3d (t : Tensor α) (kernel_size : Int × Int × Int) : Except TorchError (Tensor α) :=
  avgPool 3 t [kernel_size.1, kernel_size.2.1, kernel_size.2.2]

/-- The elements of the slice of `t` along axis `d` that passes through `idx`. -/
def slice (t : Tensor α) (d : Nat) (idx : List Nat) : List α :=
  (List.range (t.sizes.getD d 1)).map (fun j => t.elem (idx.set d j))

/-- Modelled from the spec: `Tensor::norm(p, dim, keepdim = true)`, missing from the
sources: "the Lp-norm of `input` reduced along `dim`, with the reduced axis retained as
size 1". -/
def norm (E : Engine α) (t : Tensor α) (p : α) (dim : Int) : Except TorchError (Tensor α) :=
  match wrapDim dim t.dim with
  | .error e => .error e
  | .ok d => .ok (ofFn (t.sizes.set d 1) (fun idx => vnorm E p (slice t d idx)))

/-- Modelled from the spec: `Tensor::expand_as(other)`, missing from the sources, for a
tensor of the rank of `other`: every axis either has the extent of `other` or has
extent 1 and is repeated. -/
def expand_as (t other : Tensor α) : Except TorchError (Tensor α) :=
  if t.sizes.length = other.sizes.length ∧
      (List.zipWith (fun s o => decide (s = 1 ∨ s = o)) t.sizes other.sizes).all id then
    .ok (ofFn other.sizes (fun idx => t.elem (bcastIdx t.sizes idx)))
  else .error .shapeMismatch

end Tensor


/-! ## `torch/nn/functional/normalization.h` -/

/-- Modelled from the spec: `NormalizeFuncOptions` (`torch/nn/options/normalization.h`,
missing from the sources): `{ p: real (default 2.0), dim: axis index (default 1),
eps: real > 0 (default 1e-12) }`. -/
structure NormalizeFuncOptions (α : Type) [LinearOrderedField α] where
  p : α := 2
  dim : Int := 1
  eps : α := 1 / 1000000000000

/-- Modelled from the spec: `LayerNormFuncOptions` (`torch/nn/options/normalization.h`,
missing from the sources): `{ normalized_shape (required), eps: real > 0 (default 1e-5) }`. -/
structure LayerNormFuncOptions (α : Type) [LinearOrderedField α] where
  normalized_shape : List Nat
  eps : α := 1 / 100000

/-- Modelled from the spec: `LocalResponseNormFuncOptions`
(`torch/nn/options/normalization.h`, missing from the sources): `{ size (required),
alpha (default 1e-4), beta (default 0.75), k (default 1.0) }`. -/
structure LocalResponseNormFuncOptions (α : Type) [LinearOrderedField α] where
  size : Int
  alpha : α := 1 / 10000
  beta : α := 3 / 4
  k : α := 1

/-- What a call of `normalize` leaves behind: the tensor it returns and the content of
the caller's output tensor after the call (`none` when none was passed). -/
structure NormalizeResult (α : Type) where
  result : Tensor α
  out : Option (Tensor α)
  deriving DecidableEq

/-- The arithmetic mean of a list. -/
def mean {α : Type} [LinearOrderedField α] (xs : List α) : α :=
  xs.sum / (xs.length : α)

/-- The biased variance of a list: the mean of the squared deviations from the mean. -/
def biasedVar {α : Type} [LinearOrderedField α] (xs : List α) : α :=
  mean (xs.map (fun x => (x - mean xs) ^ 2))

/-- The elements of the normalized region of `t` at the outer index `o`, in row-major
order of `normalized_shape`. -/
def region {α : Type} [LinearOrderedField α] (t : Tensor α) (normalized_shape o : List Nat) :
    List α :=
  (List.range normalized_shape.prod).map (fun j => t.elem (o ++ unravel normalized_shape j))

/-- An optional affine parameter read at an index of the normalized region; an undefined
tensor `Tensor()` stands for the neutral element `dflt`. -/
def affineAt {α : Type} [LinearOrderedField α] (w : Option (Tensor α)) (dflt : α)
    (idx : List Nat) : α :=
  match w with
  | none => dflt
  | some t => t.elem idx

/-- Modelled from the spec: the engine's fused `torch::layer_norm(input, normalized_shape,
weight, bias, eps)`, missing from the sources: "output = (x - mean) / sqrt(var + eps) *
weight + bias, where mean/var are computed per outer index over exactly the elements
inside the normalized region"; a shape mismatch of `normalized_shape`, `weight` or `bias`
fails. -/
def torch_layer_norm {α : Type} [LinearOrderedField α] (E : Engine α) (input : Tensor α)
    (normalized_shape : List Nat) (weight bias : Option (Tensor α)) (eps : α) :
    Except TorchError (Tensor α) :=
  let lead := input.dim - normalized_shape.length
  if normalized_shape.length ≤ input.dim ∧ input.sizes.drop lead = normalized_shape
      ∧ (∀ w ∈ weight, w.sizes = normalized_shape) ∧ (∀ b ∈ bias, b.sizes = normalized_shape) then
    .ok (Tensor.ofFn input.sizes (fun idx =>
      let xs := region input normalized_shape (idx.take lead)
      (input.elem idx - mean xs) / E.sqrt (biasedVar xs + eps)
        * affineAt weight 1 (idx.drop lead) + affineAt bias 0 (idx.drop lead)))
  else .error .shapeMismatch

namespace detail

variable {α : Type} [LinearOrderedField α]

/-- The function `detail::normalize` (normalization.h, lines 13-26). -/
def normalize (E : Engine α) (input : Tensor α) (p : α) (dim : Int) (eps : α)
    (out : Option (Tensor α)) : Except TorchError (NormalizeResult α) :=
  match out with
  | none => do
    let denom ← ((← input.norm E p dim).clamp_min eps).expand_as input
    let r ← input.div denom
    pure ⟨r, none⟩
  | some o => do
    let denom ← ((← input.norm E p dim).clamp_min eps).expand_as input
    let r ← Tensor.div_out o input denom
    pure ⟨r, some r⟩

/-- The local `denom` of both branches of `detail::normalize`. -/
def normalize_denom (E : Engine α) (input : Tensor α) (p : α) (dim : Int) (eps : α) :
    Except TorchError (Tensor α) := do
  ((← input.norm E p dim).clamp_min eps).expand_as input

/-- The function `detail::layer_norm` (normalization.h, lines 39-45). -/
def layer_norm (E : Engine α) (input : Tensor α) (normalized_shape : List Nat)
    (weight bias : Option (Tensor α)) (eps : α) : Except TorchError (Tensor α) :=
  torch_layer_norm E input normalized_shape weight bias eps

/-- The function `detail::local_response_norm` (normalization.h, lines 58-93); `/` on
`int64_t` truncates, `Int.tdiv`. -/
def local_response_norm (E : Engine α) (input : Tensor α) (size : Int) (alpha beta k : α) :
    Except TorchError (Tensor α) := do
  let dim := input.dim
  if ¬ (dim ≥ 3) then throw (TorchError.dimensionality dim)
  let div := (← input.mul input).unsqueeze 1
  let div ←
    if dim = 3 then do
      let div ← div.pad [0, 0, size.tdiv 2, (size - 1).tdiv 2] 0
      let div ← div.avg_pool2d (size, 1)
      pure (div.squeeze 1)
    else do
      let sizes := input.sizes
      let div ← div.view [(sizes.getD 0 0 : Int), 1, (sizes.getD 1 0 : Int), (sizes.getD 2 0 : Int), -1]
      let div ← div.pad [0, 0, 0, 0, size.tdiv 2, (size - 1).tdiv 2] 0
      let div ← div.avg_pool3d (size, 1, 1)
      let div := div.squeeze 1
      div.view (sizes.map Int.ofNat)
  let div := ((div.mul_scalar alpha).add_scalar k).pow E beta
  input.div div

/-- The local `div` of `detail::local_response_norm` right after the call of `detail::pad`
(normalization.h, lines 64-68 in the rank-3 branch, lines 64-80 otherwise). -/
def lrn_padded (input : Tensor α) (size : Int) : Except TorchError (Tensor α) := do
  let dim := input.dim
  if ¬ (dim ≥ 3) then throw (TorchError.dimensionality dim)
  let div := (← input.mul input).unsqueeze 1
  if dim = 3 then
    div.pad [0, 0, size.tdiv 2, (size - 1).tdiv 2] 0
  else do
    let sizes := input.sizes
    let div ← div.view [(sizes.getD 0 0 : Int), 1, (sizes.getD 1 0 : Int), (sizes.getD 2 0 : Int), -1]
    div.pad [0, 0, 0, 0, size.tdiv 2, (size - 1).tdiv 2] 0

/-- The local `div` of `detail::local_response_norm` after the average pooling and
`squeeze(1)` (lines 69-76 in the rank-3 branch, lines 81-88 otherwise). -/
def lrn_pooled (input : Tensor α) (size : Int) : Except TorchError (Tensor α) := do
  let div ← lrn_padded input size
  if input.dim = 3 then do
    let div ← div.avg_pool2d (size, 1)
    pure (div.squeeze 1)
  else do
    let div ← div.avg_pool3d (size, 1, 1)
    pure (div.squeeze 1)

/-- The local `div` of `detail::local_response_norm` at the end of the rank split (line 90,
after `div.view(sizes)` in the branch of rank at least 4), before the scaling of line 91. -/
def lrn_div (input : Tensor α) (size : Int) : Except TorchError (Tensor α) := do
  let div ← lrn_pooled input size
  if input.dim = 3 then pure div else div.view (input.sizes.map Int.ofNat)

end detail

variable {α : Type} [LinearOrderedField α]

/-- The function `normalize` (normalization.h, lines 29-34). -/
def normalize (E : Engine α) (input : Tensor α) (options : NormalizeFuncOptions α := {})
    (out : Option (Tensor α) := none) : Except TorchError (NormalizeResult α) :=
  detail.normalize E input options.p options.dim options.eps out

/-- The function `layer_norm` (normalization.h, lines 48-53). -/
def layer_norm (E : Engine α) (input : Tensor α) (options : LayerNormFuncOptions α)
    (weight : Option (Tensor α) := none) (bias : Option (Tensor α) := none) :
    Except TorchError (Tensor α) :=
  detail.layer_norm E input options.normalized_shape weight bias options.eps

/-- The function `local_response_norm` (normalization.h, lines 96-100). -/
def local_response_norm (E : Engine α) (input : Tensor α)
    (options : LocalResponseNormFuncOptions α) : Except TorchError (Tensor α) :=
  detail.local_response_norm E input options.size options.alpha options.beta options.k

/-! ## `torch/nn/options/activation.h` -/

/-- The struct `MultiheadAttentionOptions` (activation.h, lines 109-143).  `TORCH_ARG(T, name)`
(`torch/arg.h`, missing from the sources) declares the member `name_` with the getter
`name()`. -/
structure MultiheadAttentionOptions where
  embed_dim_ : Int
  num_heads_ : Int
  dropout_ : ℚ
  bias_ : Bool
  add_bias_kv_ : Bool
  add_zero_attn_ : Bool
  kdim_ : Option Int
  vdim_ : Option Int
  deriving DecidableEq, Repr

namespace MultiheadAttentionOptions

/-- The constructor `MultiheadAttentionOptions(int64_t embed_dim, int64_t num_heads)`:
the member initializers, then the constructor body. -/
def new (embed_dim num_heads : Int) : MultiheadAttentionOptions :=
  let o : MultiheadAttentionOptions :=
    { embed_dim_ := embed_dim, num_heads_ := num_heads, dropout_ := 0, bias_ := true,
      add_bias_kv_ := false, add_zero_attn_ := false, kdim_ := none, vdim_ := none }
  let o := if o.kdim_.isNone then { o with kdim_ := some embed_dim } else o
  let o := if o.vdim_.isNone then { o with vdim_ := some embed_dim } else o
  o

/-- The getter `embed_dim()`. -/
def embed_dim (o : MultiheadAttentionOptions) : Int := o.embed_dim_
/-- The getter `num_heads()`. -/
def num_heads (o : MultiheadAttentionOptions) : Int := o.num_heads_
/-- The getter `dropout()`. -/
def dropout (o : MultiheadAttentionOptions) : ℚ := o.dropout_
/-- The getter `bias()`. -/
def bias (o : MultiheadAttentionOptions) : Bool := o.bias_
/-- The getter `add_bias_kv()`. -/
def add_bias_kv (o : MultiheadAttentionOptions) : Bool := o.add_bias_kv_
/-- The getter `add_zero_attn()`. -/
def add_zero_attn (o : MultiheadAttentionOptions) : Bool := o.add_zero_attn_
/-- The getter `kdim()`. -/
def kdim (o : MultiheadAttentionOptions) : Option Int := o.kdim_
/-- The getter `vdim()`. -/
def vdim (o : MultiheadAttentionOptions) : Option Int := o.vdim_

end MultiheadAttentionOptions

/-- The average the padding and pooling steps of `detail::local_response_norm` leave at the
element `n :: c :: tl`: the mean of the `s` entries of the zero-padded channel axis of
`input * input` from position `c` on (entry `j` of the padded axis is channel `j - s / 2`). -/
def lrnWindowAvg {α : Type} [LinearOrderedField α] (x : Tensor α) (s n c : Nat) (tl : List Nat) : α :=
  ((List.range s).map (fun o =>
    if s / 2 ≤ c + o ∧ c + o < s / 2 + x.sizes.getD 1 0
    then x.elem (n :: (c + o - s / 2) :: tl) * x.elem (n :: (c + o - s / 2) :: tl) else 0)).sum
    / (s : α)

/-- The sum `S` in the words of the specification: the squares `x[n, j, l]^2` summed over
the channel indices `j` from `c - size / 2` to `c + (size - 1) / 2` that lie in `[0, C)`. -/
def channelWindowSumSq {α : Type} [LinearOrderedField α] (x : Tensor α) (C : Nat) (size : Int)
    (n c l : Nat) : α :=
  ∑ j in (Finset.Icc ((c : Int) - size / 2) ((c : Int) + (size - 1) / 2)).filter
      (fun j => 0 ≤ j ∧ j < (C : Int)), (x.elem [n, j.toNat, l]) ^ 2

/-- The laws of the real power that the engine's `pow` is taken to obey at the exponents `p`
and `1 / p` when the homogeneity of the Lp-norm is needed: the power of a quotient of
non-negative numbers, its sign, and the `p`-th root undoing the `p`-th power. -/
structure PowLaws {α : Type} [LinearOrderedField α] (E : Engine α) (p : α) : Prop where
  div_pow : ∀ a b : α, 0 ≤ a → 0 ≤ b → E.pow (a / b) p = E.pow a p / E.pow b p
  div_root : ∀ a b : α, 0 ≤ a → 0 ≤ b → E.pow (a / b) (1 / p) = E.pow a (1 / p) / E.pow b (1 / p)
  pow_nonneg : ∀ a : α, 0 ≤ a → 0 ≤ E.pow a p
  root_pow : ∀ c : α, 0 < c → E.pow (E.pow c p) (1 / p) = c

/-- Newton's iteration for the integer square root of `n` from the guess `g`, at most
`fuel` steps. -/
def isqrtAux : Nat → Nat → Nat → Nat
  | 0, _, g => g
  | fuel + 1, n, g => if (g + n / g) / 2 < g then isqrtAux fuel n ((g + n / g) / 2) else g

/-- The integer square root. -/
def isqrt (n : Nat) : Nat := if n = 0 then 0 else isqrtAux n n n

/-- The square root of a rational, exact on the squares of rationals (numerator and
denominator are rooted separately). -/
def ratSqrt (q : ℚ) : ℚ := (isqrt q.num.toNat : ℚ) / (isqrt q.den : ℚ)

/-- An executable engine over `ℚ`, for evaluating the functionals on concrete inputs: the
power is exact for integer exponents and, for the exponent 1/2, on squares of rationals;
the square root is exact on squares of rationals. -/
def ratEngine : Engine ℚ where
  pow x y := if y.den = 1 then x ^ y.num else if y = 1 / 2 then ratSqrt x else 0
  sqrt := ratSqrt

/-! ## Indexing lemmas -/

theorem ravel_lt : ∀ (sizes idx : List Nat), ValidIdx sizes idx → ravel sizes idx < sizes.prod
  | [], [], _ => by simp [ravel]
  | s :: ss, i :: is, h => by
    have ih := ravel_lt ss is h.2
    have hi : i + 1 ≤ s := h.1
    simp only [ravel, List.prod_cons]
    calc i * ss.prod + ravel ss is < i * ss.prod + ss.prod := by omega
      _ = (i + 1) * ss.prod := by ring
      _ ≤ s * ss.prod := Nat.mul_le_mul_right _ hi
  | [], _ :: _, h => absurd h (by simp [ValidIdx])
  | _ :: _, [], h => absurd h (by simp [ValidIdx])

theorem unravel_ravel : ∀ (sizes idx : List Nat), ValidIdx sizes idx →
    unravel sizes (ravel sizes idx) = idx
  | [], [], _ => by simp [unravel]
  | s :: ss, i :: is, h => by
    have hlt := ravel_lt ss is h.2
    have hpos : 0 < ss.prod := by omega
    have ih := unravel_ravel ss is h.2
    have h1 : (i * ss.prod + ravel ss is) / ss.prod = i := by
      rw [Nat.add_comm, Nat.add_mul_div_right _ _ hpos, Nat.div_eq_of_lt hlt, Nat.zero_add]
    have h2 : (i * ss.prod + ravel ss is) % ss.prod = ravel ss is := by
      rw [Nat.add_comm, Nat.add_mul_mod_self_right, Nat.mod_eq_of_lt hlt]
    simp only [ravel, unravel, h1, h2, ih, Nat.mod_eq_of_lt h.1]
  | [], _ :: _, h => absurd h (by simp [ValidIdx])
  | _ :: _, [], h => absurd h (by simp [ValidIdx])

theorem getD_ofFn {α : Type} [Zero α] (sizes : List Nat) (f : List Nat → α) (k : Nat)
    (hk : k < sizes.prod) : (Tensor.ofFn sizes f).data.getD k 0 = f (unravel sizes k) := by
  have hlen : k < ((List.range sizes.prod).map (fun k => f (unravel sizes k))).length := by
    simpa using hk
  simp only [Tensor.ofFn]
  rw [List.getD_eq_getElem _ _ hlen]
  simp

theorem elem_ofFn {α : Type} [Zero α] (sizes : List Nat) (f : List Nat → α) (idx : List Nat)
    (h : ValidIdx sizes idx) : (Tensor.ofFn sizes f).elem idx = f idx := by
  have hk := ravel_lt sizes idx h
  show (Tensor.ofFn sizes f).data.getD (ravel sizes idx) 0 = f idx
  rw [getD_ofFn sizes f _ hk, unravel_ravel sizes idx h]

theorem ofFn_WF {α : Type} (sizes : List Nat) (f : List Nat → α) : (Tensor.ofFn sizes f).WF := by
  simp [Tensor.WF, Tensor.ofFn]


theorem validIdx_unravel : ∀ (sizes : List Nat) (k : Nat), k < sizes.prod →
    ValidIdx sizes (unravel sizes k)
  | [], _, _ => trivial
  | s :: ss, k, h => by
    simp only [List.prod_cons] at h
    have hs : 0 < s := Nat.pos_of_ne_zero (fun h0 => by simp [h0] at h)
    have hp : 0 < ss.prod := Nat.pos_of_ne_zero (fun h0 => by simp [h0] at h)
    exact ⟨Nat.mod_lt _ hs, validIdx_unravel ss (k % ss.prod) (Nat.mod_lt _ hp)⟩

theorem ofFn_congr {α : Type} (sizes : List Nat) (f g : List Nat → α)
    (h : ∀ idx, ValidIdx sizes idx → f idx = g idx) : Tensor.ofFn sizes f = Tensor.ofFn sizes g := by
  simp only [Tensor.ofFn, Tensor.mk.injEq, true_and]
  apply List.map_congr_left
  intro k hk
  exact h _ (validIdx_unravel sizes k (List.mem_range.mp hk))

theorem list_range_sum {M : Type} [AddCommMonoid M] (f : Nat → M) : ∀ (n : Nat),
    ((List.range n).map f).sum = ∑ i in Finset.range n, f i
  | 0 => by simp
  | n + 1 => by
    rw [List.range_succ, List.map_append, List.sum_append, list_range_sum f n,
      Finset.sum_range_succ]
    simp

theorem ravel_unravel : ∀ (sizes : List Nat) (k : Nat), k < sizes.prod →
    ravel sizes (unravel sizes k) = k
  | [], k, h => by simp at h; simp [unravel, ravel, h]
  | s :: ss, k, h => by
    simp only [List.prod_cons] at h
    have hp : 0 < ss.prod := Nat.pos_of_ne_zero (fun h0 => by simp [h0] at h)
    have hq : k / ss.prod < s := Nat.div_lt_of_lt_mul (by rwa [Nat.mul_comm] at h)
    have ih := ravel_unravel ss (k % ss.prod) (Nat.mod_lt _ hp)
    simp only [unravel, ravel, ih, Nat.mod_eq_of_lt hq]
    exact Nat.div_add_mod' k ss.prod

/-! ## Lemmas on `normalize` -/

section NormalizeLemmas
variable {α : Type} [LinearOrderedField α]

theorem expandable_self : ∀ (l : List Nat),
    (List.zipWith (fun s o => decide (s = 1 ∨ s = o)) l l).all id = true
  | [] => by simp
  | s :: l => by
    have ih := expandable_self l
    simp only [List.zipWith_cons_cons, List.all_cons, id, ih]
    simp

theorem expandable_set_one : ∀ (l : List Nat) (d : Nat),
    (List.zipWith (fun s o => decide (s = 1 ∨ s = o)) (l.set d 1) l).all id = true
  | [], _ => by simp
  | s :: l, 0 => by
    have ih := expandable_self l
    simp only [List.set_cons_zero, List.zipWith_cons_cons, List.all_cons, id, ih]
    simp
  | s :: l, d + 1 => by
    have ih := expandable_set_one l d
    simp only [List.set_cons_succ, List.zipWith_cons_cons, List.all_cons, id, ih]
    simp

theorem bcastIdx_valid : ∀ (sizes idx : List Nat), ValidIdx sizes idx → bcastIdx sizes idx = idx
  | [], [], _ => by simp [bcastIdx]
  | s :: ss, i :: is, h => by
    have ih := bcastIdx_valid ss is h.2
    have hi := h.1
    simp only [bcastIdx] at ih ⊢
    simp only [List.zipWith_cons_cons, ih, List.cons.injEq, and_true]
    split <;> omega
  | [], _ :: _, h => absurd h (by simp [ValidIdx])
  | _ :: _, [], h => absurd h (by simp [ValidIdx])

theorem bcastIdx_set_one : ∀ (sizes idx : List Nat) (d : Nat), ValidIdx sizes idx →
    bcastIdx (sizes.set d 1) idx = idx.set d 0
  | [], [], _, _ => by simp [bcastIdx]
  | s :: ss, i :: is, 0, h => by
    have ih := bcastIdx_valid ss is h.2
    simp only [bcastIdx] at ih ⊢
    simp [ih]
  | s :: ss, i :: is, d + 1, h => by
    have ih := bcastIdx_set_one ss is d h.2
    have hi := h.1
    simp only [bcastIdx] at ih ⊢
    simp only [List.set_cons_succ, List.zipWith_cons_cons, ih, List.cons.injEq, and_true]
    split <;> omega
  | [], _ :: _, _, h => absurd h (by simp [ValidIdx])
  | _ :: _, [], _, h => absurd h (by simp [ValidIdx])

theorem validIdx_set : ∀ (sizes idx : List Nat) (d : Nat), ValidIdx sizes idx →
    ValidIdx (sizes.set d 1) (idx.set d 0)
  | [], [], _, _ => by simp [ValidIdx]
  | s :: ss, i :: is, 0, h => by simpa [ValidIdx] using h.2
  | s :: ss, i :: is, d + 1, h => by
    simpa [ValidIdx] using And.intro h.1 (validIdx_set ss is d h.2)
  | [], _ :: _, _, h => absurd h (by simp [ValidIdx])
  | _ :: _, [], _, h => absurd h (by simp [ValidIdx])

theorem validIdx_length : ∀ (sizes idx : List Nat), ValidIdx sizes idx → idx.length = sizes.length
  | [], [], _ => rfl
  | s :: ss, i :: is, h => by simp [validIdx_length ss is h.2]
  | [], _ :: _, h => absurd h (by simp [ValidIdx])
  | _ :: _, [], h => absurd h (by simp [ValidIdx])

theorem slice_set (t : Tensor α) (d : Nat) (idx : List Nat) (v : Nat) :
    t.slice d (idx.set d v) = t.slice d idx := by
  simp [Tensor.slice, List.set_set]


theorem validIdx_set_lt : ∀ (sizes idx : List Nat) (d j : Nat), ValidIdx sizes idx →
    j < sizes.getD d 1 → ValidIdx sizes (idx.set d j)
  | [], [], _, _, _, _ => by simp [ValidIdx]
  | s :: ss, i :: is, 0, j, h, hj => by
    simp only [List.getD_cons_zero] at hj
    simpa [ValidIdx] using And.intro hj h.2
  | s :: ss, i :: is, d + 1, j, h, hj => by
    simp only [List.getD_cons_succ] at hj
    simpa [ValidIdx] using And.intro h.1 (validIdx_set_lt ss is d j h.2 hj)
  | [], _ :: _, _, _, h, _ => absurd h (by simp [ValidIdx])
  | _ :: _, [], _, _, h, _ => absurd h (by simp [ValidIdx])

/-- The tensor `input.norm(p, dim, true).clamp_min(eps).expand_as(input)` for the axis `d`. -/
theorem denom_steps (E : Engine α) (x : Tensor α) (p : α) (dim : Int) (eps : α) (d : Nat)
    (hd : wrapDim dim x.dim = .ok d) :
    ∃ nrm denom, Tensor.norm E x p dim = .ok nrm ∧
      (nrm.clamp_min eps).expand_as x = .ok denom ∧ denom.sizes = x.sizes ∧
      ∀ idx, ValidIdx x.sizes idx → denom.elem idx = max (vnorm E p (x.slice d idx)) eps := by
  refine ⟨Tensor.ofFn (x.sizes.set d 1) (fun idx => vnorm E p (x.slice d idx)),
    Tensor.ofFn x.sizes (fun idx =>
      (Tensor.clamp_min (Tensor.ofFn (x.sizes.set d 1) (fun idx => vnorm E p (x.slice d idx)))
        eps).elem (bcastIdx (x.sizes.set d 1) idx)), ?_, ?_, rfl, ?_⟩
  · simp only [Tensor.norm, hd]
  · simp only [Tensor.expand_as, Tensor.clamp_min, Tensor.ofFn, List.length_set,
      expandable_set_one, and_self, if_true]
  · intro idx hv
    rw [elem_ofFn _ _ _ hv]
    show (Tensor.ofFn (x.sizes.set d 1) _).elem (bcastIdx (x.sizes.set d 1) idx) = _
    rw [bcastIdx_set_one _ _ _ hv, elem_ofFn _ _ _ (validIdx_set _ _ _ hv),
      elem_ofFn _ _ _ (validIdx_set _ _ _ hv), slice_set]

/-- What `detail::normalize` computes when the axis is one of the input: the input divided
elementwise by `denom`, returned and, when an output tensor was passed, written to it. -/
theorem normalize_ok (E : Engine α) (x : Tensor α) (p : α) (dim : Int) (eps : α)
    (out : Option (Tensor α)) (d : Nat) (hd : wrapDim dim x.dim = .ok d) :
    ∃ denom q, detail.normalize_denom E x p dim eps = .ok denom ∧
      detail.normalize E x p dim eps out = .ok ⟨q, out.map (fun _ => q)⟩ ∧
      q.sizes = x.sizes ∧
      ∀ idx, ValidIdx x.sizes idx →
        denom.elem idx = max (vnorm E p (x.slice d idx)) eps ∧
        q.elem idx = x.elem idx / denom.elem idx := by
  obtain ⟨nrm, denom, h1, h2, h3, h4⟩ := denom_steps E x p dim eps d hd
  refine ⟨denom, Tensor.ofFn x.sizes (fun idx => x.elem idx / denom.elem idx), ?_, ?_, rfl, ?_⟩
  · simp [detail.normalize_denom, h1, h2, bind, Except.bind]
  · cases out <;>
      simp [detail.normalize, h1, h2, Tensor.div, Tensor.div_out, Tensor.zipSame, h3, bind,
        Except.bind, pure, Except.pure]
  · intro idx hv
    exact ⟨h4 idx hv, elem_ofFn _ _ _ hv⟩

/-- The slices of the output of `detail::normalize`: the slice of the input divided by
the clamped norm of that slice. -/
theorem normalize_slice (E : Engine α) (x : Tensor α) (p : α) (dim : Int) (eps : α)
    (out : Option (Tensor α)) (d : Nat) (idx : List Nat) (hd : wrapDim dim x.dim = .ok d)
    (hv : ValidIdx x.sizes idx) :
    ∃ r, detail.normalize E x p dim eps out = .ok r ∧
      r.result.slice d idx
        = (x.slice d idx).map (fun v => v / max (vnorm E p (x.slice d idx)) eps) := by
  obtain ⟨denom, q, -, h2, h3, h4⟩ := normalize_ok E x p dim eps out d hd
  refine ⟨_, h2, ?_⟩
  show q.slice d idx = _
  simp only [Tensor.slice, h3, List.map_map]
  apply List.map_congr_left
  intro j hj
  have hvj := validIdx_set_lt x.sizes idx d j hv (List.mem_range.mp hj)
  obtain ⟨hdenj, hqj⟩ := h4 _ hvj
  have hsl : x.slice d (idx.set d j) = x.slice d idx := slice_set x d idx j
  simp only [Function.comp_apply]
  rw [hqj, hdenj, hsl]
  rfl

theorem sum_map_div (b : α) (g : α → α) : ∀ (xs : List α),
    (xs.map (fun v => g v / b)).sum = (xs.map g).sum / b
  | [] => by simp
  | a :: xs => by
    simp only [List.map_cons, List.sum_cons, sum_map_div b g xs, add_div]

/-- The Lp-norm is homogeneous under division by a positive number, when the engine's
power obeys the laws of the real power. -/
theorem vnorm_div (E : Engine α) (p : α) (hlaws : PowLaws E p) (xs : List α) (c : α)
    (hc : 0 < c) : vnorm E p (xs.map (fun v => v / c)) = vnorm E p xs / c := by
  have h1 : (xs.map (fun v => v / c)).map (fun v => E.pow |v| p)
      = xs.map (fun v => E.pow |v| p / E.pow c p) := by
    rw [List.map_map]
    apply List.map_congr_left
    intro v _
    simp only [Function.comp_apply]
    rw [abs_div, abs_of_pos hc, hlaws.div_pow _ _ (abs_nonneg v) hc.le]
  have h2 : 0 ≤ (xs.map (fun v => E.pow |v| p)).sum := by
    apply List.sum_nonneg
    intro y hy
    obtain ⟨v, -, rfl⟩ := List.mem_map.mp hy
    exact hlaws.pow_nonneg _ (abs_nonneg v)
  unfold vnorm
  rw [h1, sum_map_div, hlaws.div_root _ _ h2 (hlaws.pow_nonneg c hc.le), hlaws.root_pow c hc]

end NormalizeLemmas


/-! ## Lemmas on `local_response_norm` -/

section LrnLemmas
variable {α : Type} [LinearOrderedField α]

theorem elem_reshape (t : Tensor α) (S idx idx2 : List Nat)
    (h : ravel S idx2 = ravel t.sizes idx) : (⟨S, t.data⟩ : Tensor α).elem idx2 = t.elem idx := by
  simp [Tensor.elem, h]

theorem pad_channel4 (u : Tensor α) (N C L a b : Nat) (hu : u.sizes = [N, 1, C, L]) :
    ∃ f, u.pad [0, 0, (a : Int), (b : Int)] 0 = .ok (Tensor.ofFn [N, 1, C + a + b, L] f) ∧
      ∀ n j l, n < N → j < C + a + b → l < L →
        f [n, 0, j, l] = if a ≤ j ∧ j < a + C then u.elem [n, 0, j - a, l] else 0 := by
  have h1 : ¬ ((N : Int) < 0 ∨ (C : Int) + a + b < 0 ∨ (L : Int) < 0) := by omega
  have h2 : ((C : Int) + a + b).toNat = C + a + b := by omega
  simp only [Tensor.pad, padPairs, Tensor.dim, hu, List.replicate, Option.map_some',
    List.length_cons, List.length_nil, List.reverse_cons, List.reverse_nil, List.nil_append,
    List.cons_append, List.zipWith_cons_cons, List.zipWith_nil_right, List.any_cons, List.any_nil,
    List.map_cons, List.map_nil]
  simp [h1, h2]
  refine ⟨_, rfl, ?_⟩
  intro n j l hn hj hl
  simp [hn, hl]
  by_cases hc : a ≤ j ∧ j < a + C
  · have e1 : ((j : Int) - a).toNat = j - a := by omega
    have e2 : (a : Int) ≤ j := by omega
    have e3 : (j : Int) - a < C := by omega
    simp [hc, e1, e2, e3]
  · have e2 : ¬ ((a : Int) ≤ j ∧ (j : Int) - a < C) := by omega
    simp only [hc, if_false]
    rw [if_pos]
    intro h3
    omega

theorem flatMap_single {β γ : Type} (f : β → γ) : ∀ (l : List β),
    l.flatMap (fun i => [f i]) = l.map f
  | [] => rfl
  | x :: l => by
    have ih := flatMap_single f l
    simp only [List.flatMap_cons, List.map_cons, ih, List.singleton_append]

theorem offsets_one : offsets [1] = [[0]] := by decide

theorem offsets_channel2 (s : Nat) : offsets [s, 1] = (List.range s).map (fun i => [i, 0]) := by
  have h : offsets [s, 1] = (List.range s).flatMap (fun i => (offsets [1]).map (fun o => i :: o)) := rfl
  rw [h, offsets_one]
  exact flatMap_single _ _

theorem avg_pool2d_channel (P : Tensor α) (N Cp L s : Nat) (hs : 1 ≤ s)
    (hP : P.sizes = [N, 1, Cp, L]) :
    ∃ g, P.avg_pool2d ((s : Int), 1) = .ok (Tensor.ofFn [N, 1, Cp + 1 - s, L] g) ∧
      ∀ n c l, g [n, 0, c, l] = ((List.range s).map (fun i => P.elem [n, 0, c + i, l])).sum / (s : α) := by
  have h1 : ¬ ((s : Int) ≤ 0) := by omega
  simp [Tensor.avg_pool2d, Tensor.avgPool, Tensor.dim, hP, h1, offsets_channel2]
  refine ⟨_, rfl, ?_⟩
  intro n c l
  simp [Function.comp_def]

theorem offsets_one_one : offsets [1, 1] = [[0, 0]] := by decide

theorem offsets_channel3 (s : Nat) : offsets [s, 1, 1] = (List.range s).map (fun i => [i, 0, 0]) := by
  have h : offsets [s, 1, 1]
      = (List.range s).flatMap (fun i => (offsets [1, 1]).map (fun o => i :: o)) := rfl
  rw [h, offsets_one_one]
  exact flatMap_single _ _

theorem pad_channel5 (u : Tensor α) (N C D R a b : Nat) (hu : u.sizes = [N, 1, C, D, R]) :
    ∃ f, u.pad [0, 0, 0, 0, (a : Int), (b : Int)] 0
        = .ok (Tensor.ofFn [N, 1, C + a + b, D, R] f) ∧
      ∀ n j i r, n < N → j < C + a + b → i < D → r < R →
        f [n, 0, j, i, r] = if a ≤ j ∧ j < a + C then u.elem [n, 0, j - a, i, r] else 0 := by
  have h1 : ¬ ((N : Int) < 0 ∨ (C : Int) + a + b < 0 ∨ (D : Int) < 0 ∨ (R : Int) < 0) := by omega
  have h2 : ((C : Int) + a + b).toNat = C + a + b := by omega
  simp only [Tensor.pad, padPairs, Tensor.dim, hu, List.replicate, Option.map_some',
    List.length_cons, List.length_nil, List.reverse_cons, List.reverse_nil, List.nil_append,
    List.cons_append, List.zipWith_cons_cons, List.zipWith_nil_right, List.any_cons, List.any_nil,
    List.map_cons, List.map_nil]
  simp [h1, h2]
  refine ⟨_, rfl, ?_⟩
  intro n j i r hn hj hi hr
  simp [hn, hi, hr]
  by_cases hc : a ≤ j ∧ j < a + C
  · have e1 : ((j : Int) - a).toNat = j - a := by omega
    have e2 : (a : Int) ≤ j := by omega
    have e3 : (j : Int) - a < C := by omega
    simp [hc, e1, e2, e3]
  · simp only [hc, if_false]
    rw [if_pos]
    intro h3
    omega

theorem avg_pool3d_channel (P : Tensor α) (N Cp D R s : Nat) (hs : 1 ≤ s)
    (hP : P.sizes = [N, 1, Cp, D, R]) :
    ∃ g, P.avg_pool3d ((s : Int), 1, 1) = .ok (Tensor.ofFn [N, 1, Cp + 1 - s, D, R] g) ∧
      ∀ n c i r, g [n, 0, c, i, r]
        = ((List.range s).map (fun o => P.elem [n, 0, c + o, i, r])).sum / (s : α) := by
  have h1 : ¬ ((s : Int) ≤ 0) := by omega
  simp [Tensor.avg_pool3d, Tensor.avgPool, Tensor.dim, hP, h1, offsets_channel3]
  refine ⟨_, rfl, ?_⟩
  intro n c i r
  simp [Function.comp_def]


theorem tdiv_two_cast (s : Nat) : ((s : Int)).tdiv 2 = ((s / 2 : Nat) : Int) := by
  rw [Int.tdiv_eq_ediv (by omega) (by omega)]; omega

theorem tdiv_two_pred_cast (s : Nat) (hs : 1 ≤ s) :
    ((s : Int) - 1).tdiv 2 = (((s - 1) / 2 : Nat) : Int) := by
  rw [Int.tdiv_eq_ediv (by omega) (by omega)]; omega

theorem lrn_rank3_steps (E : Engine α) (x : Tensor α) (N C L s : Nat) (alpha beta k : α)
    (hs : 1 ≤ s) (hx : x.sizes = [N, C, L]) :
    ∃ Dv : Tensor α, Dv.sizes = x.sizes ∧
      detail.local_response_norm E x (s : Int) alpha beta k
        = x.div (((Dv.mul_scalar alpha).add_scalar k).pow E beta) ∧
      ∀ n c tl, ValidIdx x.sizes (n :: c :: tl) → Dv.elem (n :: c :: tl) = lrnWindowAvg x s n c tl := by
  have hmul : x.mul x = .ok (Tensor.ofFn [N, C, L] (fun idx => x.elem idx * x.elem idx)) := by
    simp [Tensor.mul, Tensor.zipSame, hx]
  obtain ⟨f, hpad, hf⟩ := pad_channel4
    ((Tensor.ofFn [N, C, L] (fun idx => x.elem idx * x.elem idx)).unsqueeze 1) N C L (s / 2)
    ((s - 1) / 2) (by simp [Tensor.unsqueeze, Tensor.ofFn])
  obtain ⟨g, hpool, hg⟩ := avg_pool2d_channel
    (Tensor.ofFn [N, 1, C + s / 2 + (s - 1) / 2, L] f) N (C + s / 2 + (s - 1) / 2) L s hs rfl
  have hC : C + s / 2 + (s - 1) / 2 + 1 - s = C := by omega
  rw [hC] at hpool
  refine ⟨⟨x.sizes, (Tensor.ofFn [N, 1, C, L] g).data⟩, rfl, ?_, ?_⟩
  · simp only [detail.local_response_norm, Tensor.dim, hx, hmul, tdiv_two_cast,
      tdiv_two_pred_cast s hs, hpad, hpool, bind, Except.bind, pure, Except.pure, Tensor.squeeze,
      List.length_cons, List.length_nil]
    simp [Tensor.ofFn]
  · intro n c tl hv
    rw [hx] at hv
    obtain ⟨l, rfl⟩ : ∃ l, tl = [l] := by
      match tl, hv with
      | [l], _ => exact ⟨l, rfl⟩
      | [], hv => exact absurd hv (by simp [ValidIdx])
      | _ :: _ :: _, hv => exact absurd hv (by simp [ValidIdx])
    obtain ⟨hn, hc, hl, -⟩ := hv
    have hr : ravel x.sizes [n, c, l] = ravel [N, 1, C, L] [n, 0, c, l] := by
      rw [hx]; simp [ravel]
    rw [elem_reshape (Tensor.ofFn [N, 1, C, L] g) x.sizes [n, 0, c, l] [n, c, l] hr,
      elem_ofFn _ _ _ (by simp only [ValidIdx, and_true]; omega), hg]
    simp only [lrnWindowAvg, hx, List.getD_cons_zero, List.getD_cons_succ]
    congr 2
    apply List.map_congr_left
    intro i hi
    have hi2 : i < s := List.mem_range.mp hi
    rw [elem_ofFn _ _ _ (by simp only [ValidIdx, and_true]; omega), hf n (c + i) l hn (by omega) hl]
    by_cases hw : s / 2 ≤ c + i ∧ c + i < s / 2 + C
    · have hr2 : ravel [N, 1, C, L] [n, 0, c + i - s / 2, l]
          = ravel [N, C, L] [n, c + i - s / 2, l] := by simp [ravel]
      simp only [hw, and_self, if_true, Tensor.unsqueeze]
      show (⟨[N, 1, C, L], (Tensor.ofFn [N, C, L] _).data⟩ : Tensor α).elem _ = _
      rw [elem_reshape (Tensor.ofFn [N, C, L] _) [N, 1, C, L] [n, c + i - s / 2, l] _ hr2,
        elem_ofFn _ _ _ (by simp only [ValidIdx, and_true]; omega)]
    · simp only [hw, if_false]

theorem filter_neg_one_cast : ∀ (S : List Nat),
    (S.map Int.ofNat).filter (fun s => s = -1) = []
  | [] => rfl
  | a :: S => by
    have h : ¬ ((a : Int) = -1) := by omega
    simp [h, filter_neg_one_cast S]

theorem all_ge_neg_one_cast : ∀ (S : List Nat),
    (S.map Int.ofNat).all (fun s => decide (-1 ≤ s)) = true
  | [] => rfl
  | a :: S => by
    have h : (-1 : Int) ≤ (a : Int) := by omega
    simp [h, all_ge_neg_one_cast S]

theorem map_infer_cast (q : Nat) : ∀ (S : List Nat),
    (S.map Int.ofNat).map (fun s => if s = -1 then q else s.toNat) = S
  | [] => rfl
  | a :: S => by
    have h : ¬ ((a : Int) = -1) := by omega
    simp [h, map_infer_cast q S]

theorem view_nat {β : Type} (t : Tensor β) (S : List Nat) (h : S.prod = t.sizes.prod) :
    t.view (S.map Int.ofNat) = .ok ⟨S, t.data⟩ := by
  simp only [Tensor.view, filter_neg_one_cast, all_ge_neg_one_cast, map_infer_cast, Tensor.numel, h]
  simp

theorem view_fold {β : Type} (u : Tensor β) (N C D : Nat) (T : List Nat)
    (hu : u.sizes = N :: 1 :: C :: D :: T) :
    ∃ R, u.view [(N : Int), 1, (C : Int), (D : Int), -1] = .ok ⟨[N, 1, C, D, R], u.data⟩ ∧
      [N, C, D, R].prod = (N :: C :: D :: T).prod ∧ (0 < N → 0 < C → 0 < D → R = T.prod) := by
  have hN : ¬ ((N : Int) = -1) := by omega
  have hC : ¬ ((C : Int) = -1) := by omega
  have hD : ¬ ((D : Int) = -1) := by omega
  have hN2 : (-1 : Int) ≤ N := by omega
  have hC2 : (-1 : Int) ≤ C := by omega
  have hD2 : (-1 : Int) ≤ D := by omega
  have key : 0 < N → 0 < C → 0 < D → N * (C * (D * T.prod)) / (N * (C * D)) = T.prod := by
    intro h1 h2 h3
    have hpos : 0 < N * (C * D) := Nat.mul_pos h1 (Nat.mul_pos h2 h3)
    have : N * (C * (D * T.prod)) = T.prod * (N * (C * D)) := by ring
    rw [this, Nat.mul_div_cancel _ hpos]
  refine ⟨N * (C * (D * T.prod)) / (N * (C * D)), ?_, ?_, key⟩
  · have hcond : ((N * (C * (D * T.prod)) / (N * (C * D)) = T.prod ∨ D = 0) ∨ C = 0) ∨ N = 0 := by
      rcases Nat.eq_zero_or_pos N with h | h1
      · exact Or.inr h
      rcases Nat.eq_zero_or_pos C with h | h2
      · exact Or.inl (Or.inr h)
      rcases Nat.eq_zero_or_pos D with h | h3
      · exact Or.inl (Or.inl (Or.inr h))
      exact Or.inl (Or.inl (Or.inl (key h1 h2 h3)))
    simp [Tensor.view, hu, Tensor.numel, hN, hC, hD, hN2, hC2, hD2, hcond]
  · simp only [List.prod_cons, List.prod_nil, Nat.mul_one]
    rcases Nat.eq_zero_or_pos N with h | h1
    · simp [h]
    rcases Nat.eq_zero_or_pos C with h | h2
    · simp [h]
    rcases Nat.eq_zero_or_pos D with h | h3
    · simp [h]
    rw [key h1 h2 h3]

theorem lrn_rank4_steps (E : Engine α) (x : Tensor α) (N C D d3 : Nat) (T : List Nat) (s : Nat)
    (alpha beta k : α) (hs : 1 ≤ s) (hx : x.sizes = N :: C :: D :: d3 :: T) :
    ∃ Dv : Tensor α, Dv.sizes = x.sizes ∧
      detail.local_response_norm E x (s : Int) alpha beta k
        = x.div (((Dv.mul_scalar alpha).add_scalar k).pow E beta) ∧
      ∀ n c tl, ValidIdx x.sizes (n :: c :: tl) → Dv.elem (n :: c :: tl) = lrnWindowAvg x s n c tl := by
  have hmul : x.mul x = .ok (Tensor.ofFn (N :: C :: D :: d3 :: T) (fun idx => x.elem idx * x.elem idx)) := by
    simp [Tensor.mul, Tensor.zipSame, hx]
  obtain ⟨R, hview, hprod, hR⟩ := view_fold
    ((Tensor.ofFn (N :: C :: D :: d3 :: T) (fun idx => x.elem idx * x.elem idx)).unsqueeze 1)
    N C D (d3 :: T) (by simp [Tensor.unsqueeze, Tensor.ofFn])
  obtain ⟨f, hpad, hf⟩ := pad_channel5
    (⟨[N, 1, C, D, R], ((Tensor.ofFn (N :: C :: D :: d3 :: T)
      (fun idx => x.elem idx * x.elem idx)).unsqueeze 1).data⟩ : Tensor α) N C D R (s / 2)
    ((s - 1) / 2) rfl
  obtain ⟨g, hpool, hg⟩ := avg_pool3d_channel
    (Tensor.ofFn [N, 1, C + s / 2 + (s - 1) / 2, D, R] f) N (C + s / 2 + (s - 1) / 2) D R s hs rfl
  have hC : C + s / 2 + (s - 1) / 2 + 1 - s = C := by omega
  rw [hC] at hpool
  have hview2 := view_nat (⟨[N, C, D, R], (Tensor.ofFn [N, 1, C, D, R] g).data⟩ : Tensor α)
    (N :: C :: D :: d3 :: T) hprod.symm
  refine ⟨⟨x.sizes, (Tensor.ofFn [N, 1, C, D, R] g).data⟩, rfl, ?_, ?_⟩
  · simp only [detail.local_response_norm, Tensor.dim, hx, hmul, tdiv_two_cast,
      tdiv_two_pred_cast s hs, bind, Except.bind, pure, Except.pure, Tensor.squeeze,
      List.length_cons, List.length_nil, List.getD_cons_zero, List.getD_cons_succ]
    have e1 : ¬ ¬ (T.length + 1 + 1 + 1 + 1 ≥ 3) := by omega
    have e2 : ¬ (T.length + 1 + 1 + 1 + 1 = 3) := by omega
    rw [if_neg e1, if_neg e2, hview]
    simp only [hpad, hpool]
    have e3 : (Tensor.ofFn [N, 1, C, D, R] g).sizes.get? 1 = some 1 := rfl
    have e4 : (Tensor.ofFn [N, 1, C, D, R] g).sizes.eraseIdx 1 = [N, C, D, R] := rfl
    simp only [e3, e4, if_true, hview2, hx]
  · intro n c tl hv
    rw [hx] at hv
    obtain ⟨i, is, rfl⟩ : ∃ i is, tl = i :: is := by
      cases tl with
      | nil => exact absurd hv (by simp [ValidIdx])
      | cons i is => exact ⟨i, is, rfl⟩
    obtain ⟨hn, hc, hi, his⟩ := hv
    have hRe : R = (d3 :: T).prod := hR (by omega) (by omega) (by omega)
    have hr : ravel x.sizes (n :: c :: i :: is)
        = ravel [N, 1, C, D, R] [n, 0, c, i, ravel (d3 :: T) is] := by
      rw [hx, hRe]; simp only [ravel, List.prod_cons, List.prod_nil]; ring
    have hlt : ravel (d3 :: T) is < R := hRe ▸ ravel_lt _ _ his
    rw [elem_reshape (Tensor.ofFn [N, 1, C, D, R] g) x.sizes [n, 0, c, i, ravel (d3 :: T) is]
      (n :: c :: i :: is) hr, elem_ofFn _ _ _ (by simp only [ValidIdx, and_true]; omega), hg]
    simp only [lrnWindowAvg, hx, List.getD_cons_zero, List.getD_cons_succ]
    congr 2
    apply List.map_congr_left
    intro o ho
    have ho2 : o < s := List.mem_range.mp ho
    rw [elem_ofFn _ _ _ (by simp only [ValidIdx, and_true]; omega),
      hf n (c + o) i _ hn (by omega) hi hlt]
    by_cases hw : s / 2 ≤ c + o ∧ c + o < s / 2 + C
    · have hr2 : ravel [N, 1, C, D, R] [n, 0, c + o - s / 2, i, ravel (d3 :: T) is]
          = ravel (N :: C :: D :: d3 :: T) (n :: (c + o - s / 2) :: i :: is) := by
        rw [hRe]; simp only [ravel, List.prod_cons, List.prod_nil]; ring
      simp only [hw, and_self, if_true, Tensor.unsqueeze]
      rw [elem_reshape (Tensor.ofFn (N :: C :: D :: d3 :: T) _) [N, 1, C, D, R]
        (n :: (c + o - s / 2) :: i :: is) _ hr2,
        elem_ofFn _ _ _ (by simp only [ValidIdx]; exact ⟨hn, by omega, hi, his⟩)]
    · simp only [hw, if_false]

theorem elem_mul_scalar (t : Tensor α) (c : α) (idx : List Nat) (h : ValidIdx t.sizes idx) :
    (t.mul_scalar c).elem idx = t.elem idx * c := elem_ofFn _ _ _ h

theorem elem_add_scalar (t : Tensor α) (c : α) (idx : List Nat) (h : ValidIdx t.sizes idx) :
    (t.add_scalar c).elem idx = t.elem idx + c := elem_ofFn _ _ _ h

theorem elem_pow (E : Engine α) (t : Tensor α) (e : α) (idx : List Nat)
    (h : ValidIdx t.sizes idx) : (t.pow E e).elem idx = E.pow (t.elem idx) e := elem_ofFn _ _ _ h

/-- What `detail::local_response_norm` computes on an input of rank at least 3 with a
positive window: every element is divided by `(avg * alpha + k) ^ beta`, `avg` the
windowed average of squares along the channel axis. -/
theorem lrn_ok (E : Engine α) (x : Tensor α) (size : Int) (alpha beta k : α)
    (h3 : 3 ≤ x.dim) (hs : 1 ≤ size) :
    ∃ f, detail.local_response_norm E x size alpha beta k = .ok (Tensor.ofFn x.sizes f) ∧
      ∀ n c tl, ValidIdx x.sizes (n :: c :: tl) →
        f (n :: c :: tl)
          = x.elem (n :: c :: tl) / E.pow (lrnWindowAvg x size.toNat n c tl * alpha + k) beta := by
  obtain ⟨s, rfl⟩ : ∃ s : Nat, size = (s : Int) := ⟨size.toNat, by omega⟩
  have hs1 : 1 ≤ s := by omega
  have hsteps : ∃ Dv : Tensor α, Dv.sizes = x.sizes ∧
      detail.local_response_norm E x (s : Int) alpha beta k
        = x.div (((Dv.mul_scalar alpha).add_scalar k).pow E beta) ∧
      ∀ n c tl, ValidIdx x.sizes (n :: c :: tl) →
        Dv.elem (n :: c :: tl) = lrnWindowAvg x s n c tl := by
    match hx : x.sizes, h3 with
    | [N, C, L], _ => simpa [hx] using lrn_rank3_steps E x N C L s alpha beta k hs1 hx
    | N :: C :: D :: d3 :: T, _ =>
      simpa [hx] using lrn_rank4_steps E x N C D d3 T s alpha beta k hs1 hx
    | [], h => simp [Tensor.dim, hx] at h
    | [_], h => simp [Tensor.dim, hx] at h
    | [_, _], h => simp [Tensor.dim, hx] at h
  obtain ⟨Dv, hD, hrun, hel⟩ := hsteps
  refine ⟨fun idx =>
    x.elem idx / (((Dv.mul_scalar alpha).add_scalar k).pow E beta).elem idx, ?_, ?_⟩
  · rw [hrun]
    simp [Tensor.div, Tensor.zipSame, Tensor.pow, Tensor.add_scalar, Tensor.mul_scalar,
      Tensor.ofFn, hD]
  · intro n c tl hv
    have hv2 : ValidIdx Dv.sizes (n :: c :: tl) := hD ▸ hv
    show _ / _ = _
    rw [elem_pow E ((Dv.mul_scalar alpha).add_scalar k) beta _ hv2,
      elem_add_scalar (Dv.mul_scalar alpha) k _ hv2, elem_mul_scalar Dv alpha _ hv2,
      hel n c tl hv, Int.toNat_ofNat]

theorem validIdx_channel_lt : ∀ (S : List Nat) (n c : Nat) (tl : List Nat),
    ValidIdx S (n :: c :: tl) → c < S.getD 1 0
  | _ :: _ :: _, _, _, _, h => by simpa using h.2.1
  | [], _, _, _, h => absurd h (by simp [ValidIdx])
  | [_], _, _, _, h => absurd h (by simp [ValidIdx])

/-- A valid index of a tensor of rank at least 2 has a batch and a channel coordinate. -/
theorem validIdx_rank_ge_two (S idx : List Nat) (h2 : 2 ≤ S.length) (hv : ValidIdx S idx) :
    ∃ n c tl, idx = n :: c :: tl := by
  have hl := validIdx_length S idx hv
  match idx, hl with
  | n :: c :: tl, _ => exact ⟨n, c, tl, rfl⟩
  | [], hl => simp at hl; omega
  | [_], hl => simp at hl; omega

theorem windowAvg_eq_channelSum (x : Tensor α) (N C L s n c l : Nat) (hs : 1 ≤ s)
    (hx : x.sizes = [N, C, L]) :
    lrnWindowAvg x s n c [l] = channelWindowSumSq x C (s : Int) n c l / (s : α) := by
  have hb : ((c : Int) + ((s : Int) - 1) / 2 + 1 - ((c : Int) - (s : Int) / 2)).toNat = s := by omega
  simp only [lrnWindowAvg, channelWindowSumSq, hx, List.getD_cons_zero, List.getD_cons_succ]
  congr 1
  rw [list_range_sum, Finset.sum_filter, Int.Icc_eq_finset_map, Finset.sum_map, hb]
  apply Finset.sum_congr rfl
  intro o _
  simp only [Function.Embedding.trans_apply, Nat.castEmbedding_apply, addLeftEmbedding_apply]
  by_cases hw : s / 2 ≤ c + o ∧ c + o < s / 2 + C
  · have e1 : (0 : Int) ≤ (c : Int) - (s : Int) / 2 + o ∧ (c : Int) - (s : Int) / 2 + o < C := by
      omega
    have e2 : ((c : Int) - (s : Int) / 2 + o).toNat = c + o - s / 2 := by omega
    rw [if_pos hw, if_pos e1, e2]; ring
  · have e1 : ¬ ((0 : Int) ≤ (c : Int) - (s : Int) / 2 + o ∧ (c : Int) - (s : Int) / 2 + o < C) := by
      omega
    rw [if_neg hw, if_neg e1]

theorem zipSame_error (f : α → α → α) (a b : Tensor α) (e : TorchError)
    (h : Tensor.zipSame f a b = .error e) : e = .shapeMismatch := by
  unfold Tensor.zipSame at h
  split at h
  · cases h
  · exact (Except.error.inj h).symm

theorem pad_error (t : Tensor α) (p : List Int) (v : α) (e : TorchError)
    (h : t.pad p v = .error e) : e = .badPadding := by
  unfold Tensor.pad at h
  split at h
  · exact (Except.error.inj h).symm
  · split at h
    · exact (Except.error.inj h).symm
    · simp only at h
      split at h
      · exact (Except.error.inj h).symm
      · cases h

theorem avgPool_error (nd : Nat) (t : Tensor α) (ks : List Int) (e : TorchError)
    (h : Tensor.avgPool nd t ks = .error e) : e = .badPooling := by
  unfold Tensor.avgPool at h
  split at h
  · exact (Except.error.inj h).symm
  · cases h

theorem view_error {β : Type} (t : Tensor β) (shape : List Int) (e : TorchError)
    (h : t.view shape = .error e) : e = .badView := by
  unfold Tensor.view at h
  simp only at h
  split at h
  · cases h
  · exact (Except.error.inj h).symm

/-- On an input of rank at least 3 no failure of `detail::local_response_norm` is the
dimensionality error: whatever fails is a primitive of the engine. -/
theorem lrn_error_of_rank_ge (E : Engine α) (x : Tensor α) (size : Int) (alpha beta k : α)
    (e : TorchError) (h3 : 3 ≤ x.dim)
    (h : detail.local_response_norm E x size alpha beta k = .error e) :
    e = .shapeMismatch ∨ e = .badPadding ∨ e = .badPooling ∨ e = .badView := by
  have e1 : ¬ ¬ (x.dim ≥ 3) := by omega
  simp only [detail.local_response_norm, bind, Except.bind, pure, Except.pure, if_neg e1] at h
  split at h
  · rename_i err hm
    cases h
    exact Or.inl (zipSame_error _ _ _ _ hm)
  · split at h
    · split at h
      · rename_i err hp
        cases h
        exact Or.inr (Or.inl (pad_error _ _ _ _ hp))
      · split at h
        · rename_i err hp
          cases h
          exact Or.inr (Or.inr (Or.inl (avgPool_error _ _ _ _ hp)))
        · exact Or.inl (zipSame_error _ _ _ _ h)
    · split at h
      · rename_i err hp
        cases h
        exact Or.inr (Or.inr (Or.inr (view_error _ _ _ hp)))
      · split at h
        · rename_i err hp
          cases h
          exact Or.inr (Or.inl (pad_error _ _ _ _ hp))
        · split at h
          · rename_i err hp
            cases h
            exact Or.inr (Or.inr (Or.inl (avgPool_error _ _ _ _ hp)))
          · split at h
            · rename_i err hp
              cases h
              exact Or.inr (Or.inr (Or.inr (view_error _ _ _ hp)))
            · exact Or.inl (zipSame_error _ _ _ _ h)

/-- `detail::local_response_norm` scales the local `div` of the rank split. -/
theorem lrn_eq_div (E : Engine α) (x : Tensor α) (size : Int) (alpha beta k : α) :
    detail.local_response_norm E x size alpha beta k
      = (detail.lrn_div x size).bind
          (fun div => x.div (((div.mul_scalar alpha).add_scalar k).pow E beta)) := by
  simp only [detail.local_response_norm, detail.lrn_div, detail.lrn_pooled, detail.lrn_padded,
    bind, Except.bind, pure, Except.pure]
  by_cases h3 : ¬ (x.dim ≥ 3)
  · simp only [if_pos h3]
  · simp only [if_neg h3]
    cases x.mul x with
    | error e => rfl
    | ok sq =>
      by_cases hd : x.dim = 3
      · simp only [if_pos hd]
        cases (sq.unsqueeze 1).pad [0, 0, size.tdiv 2, (size - 1).tdiv 2] 0 with
        | error e => rfl
        | ok P =>
          simp only []
          cases P.avg_pool2d (size, 1) with
          | error e => rfl
          | ok A => rfl
      · simp only [if_neg hd]
        cases (sq.unsqueeze 1).view
            [(x.sizes.getD 0 0 : Int), 1, (x.sizes.getD 1 0 : Int), (x.sizes.getD 2 0 : Int), -1] with
        | error e => rfl
        | ok V =>
          simp only []
          cases V.pad [0, 0, 0, 0, size.tdiv 2, (size - 1).tdiv 2] 0 with
          | error e => rfl
          | ok P =>
            simp only []
            cases P.avg_pool3d (size, 1, 1) with
            | error e => rfl
            | ok A => rfl

/-- The stages of the local `div` on a rank-3 input: padded, pooled, final. -/
theorem lrn_rank3_stages (x : Tensor α) (N C L s : Nat) (hs : 1 ≤ s) (hx : x.sizes = [N, C, L]) :
    ∃ P A Dv : Tensor α, detail.lrn_padded x (s : Int) = .ok P ∧ P.sizes = [N, 1, C + s - 1, L] ∧
      detail.lrn_pooled x (s : Int) = .ok A ∧ A.sizes = [N, C, L] ∧
      detail.lrn_div x (s : Int) = .ok Dv ∧ Dv.sizes = x.sizes ∧
      ∀ n c tl, ValidIdx x.sizes (n :: c :: tl) → Dv.elem (n :: c :: tl) = lrnWindowAvg x s n c tl := by
  have hmul : x.mul x = .ok (Tensor.ofFn [N, C, L] (fun idx => x.elem idx * x.elem idx)) := by
    simp [Tensor.mul, Tensor.zipSame, hx]
  obtain ⟨f, hpad, hf⟩ := pad_channel4
    ((Tensor.ofFn [N, C, L] (fun idx => x.elem idx * x.elem idx)).unsqueeze 1) N C L (s / 2)
    ((s - 1) / 2) (by simp [Tensor.unsqueeze, Tensor.ofFn])
  obtain ⟨g, hpool, hg⟩ := avg_pool2d_channel
    (Tensor.ofFn [N, 1, C + s / 2 + (s - 1) / 2, L] f) N (C + s / 2 + (s - 1) / 2) L s hs rfl
  have hC : C + s / 2 + (s - 1) / 2 + 1 - s = C := by omega
  have hC2 : C + s / 2 + (s - 1) / 2 = C + s - 1 := by omega
  rw [hC] at hpool
  have e1 : ¬ ¬ (x.dim ≥ 3) := by simp [Tensor.dim, hx]
  have e2 : x.dim = 3 := by simp [Tensor.dim, hx]
  have hP : detail.lrn_padded x (s : Int)
      = .ok (Tensor.ofFn [N, 1, C + s / 2 + (s - 1) / 2, L] f) := by
    simp only [detail.lrn_padded, if_neg e1, if_pos e2, hmul, tdiv_two_cast,
      tdiv_two_pred_cast s hs, hpad, bind, Except.bind, pure, Except.pure]
  have hA : detail.lrn_pooled x (s : Int) = .ok ⟨[N, C, L], (Tensor.ofFn [N, 1, C, L] g).data⟩ := by
    simp only [detail.lrn_pooled, hP, if_pos e2, hpool, bind, Except.bind, pure, Except.pure,
      Tensor.squeeze]
    simp [Tensor.ofFn]
  have hD : detail.lrn_div x (s : Int) = .ok ⟨x.sizes, (Tensor.ofFn [N, 1, C, L] g).data⟩ := by
    simp only [detail.lrn_div, hA, if_pos e2, bind, Except.bind, pure, Except.pure, hx]
  refine ⟨_, _, _, hP, by simp [Tensor.ofFn, hC2], hA, rfl, hD, rfl, ?_⟩
  intro n c tl hv
  rw [hx] at hv
  obtain ⟨l, rfl⟩ : ∃ l, tl = [l] := by
    match tl, hv with
    | [l], _ => exact ⟨l, rfl⟩
    | [], hv => exact absurd hv (by simp [ValidIdx])
    | _ :: _ :: _, hv => exact absurd hv (by simp [ValidIdx])
  obtain ⟨hn, hc, hl, -⟩ := hv
  have hr : ravel x.sizes [n, c, l] = ravel [N, 1, C, L] [n, 0, c, l] := by
    rw [hx]; simp [ravel]
  rw [elem_reshape (Tensor.ofFn [N, 1, C, L] g) x.sizes [n, 0, c, l] [n, c, l] hr,
    elem_ofFn _ _ _ (by simp only [ValidIdx, and_true]; omega), hg]
  simp only [lrnWindowAvg, hx, List.getD_cons_zero, List.getD_cons_succ]
  congr 2
  apply List.map_congr_left
  intro i hi
  have hi2 : i < s := List.mem_range.mp hi
  rw [elem_ofFn _ _ _ (by simp only [ValidIdx, and_true]; omega), hf n (c + i) l hn (by omega) hl]
  by_cases hw : s / 2 ≤ c + i ∧ c + i < s / 2 + C
  · have hr2 : ravel [N, 1, C, L] [n, 0, c + i - s / 2, l]
        = ravel [N, C, L] [n, c + i - s / 2, l] := by simp [ravel]
    simp only [hw, and_self, if_true, Tensor.unsqueeze]
    show (⟨[N, 1, C, L], (Tensor.ofFn [N, C, L] _).data⟩ : Tensor α).elem _ = _
    rw [elem_reshape (Tensor.ofFn [N, C, L] _) [N, 1, C, L] [n, c + i - s / 2, l] _ hr2,
      elem_ofFn _ _ _ (by simp only [ValidIdx, and_true]; omega)]
  · simp only [hw, if_false]

/-- The stages of the local `div` on an input of rank at least 4: padded, pooled, final. -/
theorem lrn_rank4_stages (x : Tensor α) (N C D d3 : Nat) (T : List Nat) (s : Nat)
    (hs : 1 ≤ s) (hx : x.sizes = N :: C :: D :: d3 :: T) :
    ∃ (R : Nat) (P A Dv : Tensor α), detail.lrn_padded x (s : Int) = .ok P ∧
      P.sizes = [N, 1, C + s - 1, D, R] ∧
      detail.lrn_pooled x (s : Int) = .ok A ∧ A.sizes = [N, C, D, R] ∧
      [N, C, D, R].prod = x.sizes.prod ∧
      detail.lrn_div x (s : Int) = .ok Dv ∧ Dv.sizes = x.sizes ∧
      ∀ n c tl, ValidIdx x.sizes (n :: c :: tl) → Dv.elem (n :: c :: tl) = lrnWindowAvg x s n c tl := by
  have hmul : x.mul x = .ok (Tensor.ofFn (N :: C :: D :: d3 :: T) (fun idx => x.elem idx * x.elem idx)) := by
    simp [Tensor.mul, Tensor.zipSame, hx]
  obtain ⟨R, hview, hprod, hR⟩ := view_fold
    ((Tensor.ofFn (N :: C :: D :: d3 :: T) (fun idx => x.elem idx * x.elem idx)).unsqueeze 1)
    N C D (d3 :: T) (by simp [Tensor.unsqueeze, Tensor.ofFn])
  obtain ⟨f, hpad, hf⟩ := pad_channel5
    (⟨[N, 1, C, D, R], ((Tensor.ofFn (N :: C :: D :: d3 :: T)
      (fun idx => x.elem idx * x.elem idx)).unsqueeze 1).data⟩ : Tensor α) N C D R (s / 2)
    ((s - 1) / 2) rfl
  obtain ⟨g, hpool, hg⟩ := avg_pool3d_channel
    (Tensor.ofFn [N, 1, C + s / 2 + (s - 1) / 2, D, R] f) N (C + s / 2 + (s - 1) / 2) D R s hs rfl
  have hC : C + s / 2 + (s - 1) / 2 + 1 - s = C := by omega
  have hC2 : C + s / 2 + (s - 1) / 2 = C + s - 1 := by omega
  rw [hC] at hpool
  have hview2 := view_nat (⟨[N, C, D, R], (Tensor.ofFn [N, 1, C, D, R] g).data⟩ : Tensor α)
    (N :: C :: D :: d3 :: T) hprod.symm
  have e1 : ¬ ¬ (x.dim ≥ 3) := by simp [Tensor.dim, hx]
  have e2 : ¬ (x.dim = 3) := by simp [Tensor.dim, hx]
  have hP : detail.lrn_padded x (s : Int)
      = .ok (Tensor.ofFn [N, 1, C + s / 2 + (s - 1) / 2, D, R] f) := by
    simp only [detail.lrn_padded, if_neg e1, if_neg e2, hmul, tdiv_two_cast,
      tdiv_two_pred_cast s hs, bind, Except.bind, pure, Except.pure, hx, List.getD_cons_zero,
      List.getD_cons_succ, hview, hpad]
  have hA : detail.lrn_pooled x (s : Int)
      = .ok ⟨[N, C, D, R], (Tensor.ofFn [N, 1, C, D, R] g).data⟩ := by
    simp only [detail.lrn_pooled, hP, if_neg e2, hpool, bind, Except.bind, pure, Except.pure,
      Tensor.squeeze]
    simp [Tensor.ofFn]
  have hD : detail.lrn_div x (s : Int) = .ok ⟨x.sizes, (Tensor.ofFn [N, 1, C, D, R] g).data⟩ := by
    simp only [detail.lrn_div, hA, if_neg e2, bind, Except.bind, hx, hview2]
  refine ⟨R, _, _, _, hP, by simp [Tensor.ofFn, hC2], hA, rfl, by rw [hprod, hx], hD, rfl, ?_⟩
  intro n c tl hv
  rw [hx] at hv
  obtain ⟨i, is, rfl⟩ : ∃ i is, tl = i :: is := by
    cases tl with
    | nil => exact absurd hv (by simp [ValidIdx])
    | cons i is => exact ⟨i, is, rfl⟩
  obtain ⟨hn, hc, hi, his⟩ := hv
  have hRe : R = (d3 :: T).prod := hR (by omega) (by omega) (by omega)
  have hr : ravel x.sizes (n :: c :: i :: is)
      = ravel [N, 1, C, D, R] [n, 0, c, i, ravel (d3 :: T) is] := by
    rw [hx, hRe]; simp only [ravel, List.prod_cons, List.prod_nil]; ring
  have hlt : ravel (d3 :: T) is < R := hRe ▸ ravel_lt _ _ his
  rw [elem_reshape (Tensor.ofFn [N, 1, C, D, R] g) x.sizes [n, 0, c, i, ravel (d3 :: T) is]
    (n :: c :: i :: is) hr, elem_ofFn _ _ _ (by simp only [ValidIdx, and_true]; omega), hg]
  simp only [lrnWindowAvg, hx, List.getD_cons_zero, List.getD_cons_succ]
  congr 2
  apply List.map_congr_left
  intro o ho
  have ho2 : o < s := List.mem_range.mp ho
  rw [elem_ofFn _ _ _ (by simp only [ValidIdx, and_true]; omega),
    hf n (c + o) i _ hn (by omega) hi hlt]
  by_cases hw : s / 2 ≤ c + o ∧ c + o < s / 2 + C
  · have hr2 : ravel [N, 1, C, D, R] [n, 0, c + o - s / 2, i, ravel (d3 :: T) is]
        = ravel (N :: C :: D :: d3 :: T) (n :: (c + o - s / 2) :: i :: is) := by
      rw [hRe]; simp only [ravel, List.prod_cons, List.prod_nil]; ring
    simp only [hw, and_self, if_true, Tensor.unsqueeze]
    rw [elem_reshape (Tensor.ofFn (N :: C :: D :: d3 :: T) _) [N, 1, C, D, R]
      (n :: (c + o - s / 2) :: i :: is) _ hr2,
      elem_ofFn _ _ _ (by simp only [ValidIdx]; exact ⟨hn, by omega, hi, his⟩)]
  · simp only [hw, if_false]

/-- The stages of the local `div` of `detail::local_response_norm` on an input of rank at
least 3 with a positive window: the padded channel axis has `C + size - 1` entries, the
pooled tensor has `C` channels and the element count of the input, and the final `div` has
the shape of the input and holds the windowed averages. -/
theorem lrn_stages (x : Tensor α) (size : Int) (h3 : 3 ≤ x.dim) (hs : 1 ≤ size) :
    ∃ P A Dv : Tensor α, detail.lrn_padded x size = .ok P ∧
      P.sizes.getD 2 0 = x.sizes.getD 1 0 + size.toNat - 1 ∧
      detail.lrn_pooled x size = .ok A ∧ A.sizes.getD 1 0 = x.sizes.getD 1 0 ∧
      A.numel = x.numel ∧
      detail.lrn_div x size = .ok Dv ∧ Dv.sizes = x.sizes ∧
      ∀ n c tl, ValidIdx x.sizes (n :: c :: tl) →
        Dv.elem (n :: c :: tl) = lrnWindowAvg x size.toNat n c tl := by
  obtain ⟨s, rfl⟩ : ∃ s : Nat, size = (s : Int) := ⟨size.toNat, by omega⟩
  have hs1 : 1 ≤ s := by omega
  rw [Int.toNat_ofNat]
  match hx : x.sizes, h3 with
  | [N, C, L], _ =>
    obtain ⟨P, A, Dv, h1, h2, h3, h4, h5, h6, h7⟩ := lrn_rank3_stages x N C L s hs1 hx
    refine ⟨P, A, Dv, h1, by simp [h2], h3, by simp [h4], ?_, h5, hx ▸ h6, ?_⟩
    · simp [Tensor.numel, h4, hx]
    · intro n c tl hv; exact h7 n c tl (hx ▸ hv)
  | N :: C :: D :: d3 :: T, _ =>
    obtain ⟨R, P, A, Dv, h1, h2, h3, h4, hp, h5, h6, h7⟩ := lrn_rank4_stages x N C D d3 T s hs1 hx
    refine ⟨P, A, Dv, h1, by simp [h2], h3, by simp [h4], ?_, h5, hx ▸ h6, ?_⟩
    · simp only [Tensor.numel, h4, hp, hx]
    · intro n c tl hv; exact h7 n c tl (hx ▸ hv)
  | [], h => simp [Tensor.dim, hx] at h
  | [_], h => simp [Tensor.dim, hx] at h
  | [_, _], h => simp [Tensor.dim, hx] at h

theorem lrnWindowAvg_nonneg (x : Tensor α) (s n c : Nat) (tl : List Nat) :
    0 ≤ lrnWindowAvg x s n c tl := by
  unfold lrnWindowAvg
  apply div_nonneg
  · apply List.sum_nonneg
    intro y hy
    obtain ⟨o, -, rfl⟩ := List.mem_map.mp hy
    split
    · exact mul_self_nonneg _
    · exact le_refl 0
  · exact Nat.cast_nonneg _

/-- The output of `detail::local_response_norm` in terms of the local `div`. -/
theorem lrn_out_of_div (E : Engine α) (x : Tensor α) (size : Int) (alpha beta k : α)
    (h3 : 3 ≤ x.dim) (hs : 1 ≤ size) :
    ∃ Dv out : Tensor α, detail.lrn_div x size = .ok Dv ∧ Dv.sizes = x.sizes ∧
      detail.local_response_norm E x size alpha beta k = .ok out ∧ out.sizes = x.sizes ∧
      ∀ idx, ValidIdx x.sizes idx →
        0 ≤ Dv.elem idx ∧
        out.elem idx = x.elem idx / E.pow (Dv.elem idx * alpha + k) beta := by
  obtain ⟨P, A, Dv, -, -, -, -, -, hD, hsz, hel⟩ := lrn_stages x size h3 hs
  have hrun : detail.local_response_norm E x size alpha beta k
      = .ok (Tensor.ofFn x.sizes (fun idx =>
          x.elem idx / (((Dv.mul_scalar alpha).add_scalar k).pow E beta).elem idx)) := by
    rw [lrn_eq_div, hD]
    simp [Except.bind, Tensor.div, Tensor.zipSame, Tensor.pow, Tensor.add_scalar,
      Tensor.mul_scalar, Tensor.ofFn, hsz]
  refine ⟨Dv, _, hD, hsz, hrun, rfl, ?_⟩
  intro idx hv
  have hv2 : ValidIdx Dv.sizes idx := hsz ▸ hv
  obtain ⟨n, c, tl, rfl⟩ := validIdx_rank_ge_two x.sizes idx (by unfold Tensor.dim at h3; omega) hv
  refine ⟨by rw [hel n c tl hv]; exact lrnWindowAvg_nonneg _ _ _ _ _, ?_⟩
  rw [elem_ofFn _ _ _ hv, elem_pow E ((Dv.mul_scalar alpha).add_scalar k) beta _ hv2,
    elem_add_scalar (Dv.mul_scalar alpha) k _ hv2, elem_mul_scalar Dv alpha _ hv2]

end LrnLemmas
/-! ## Lemmas on `layer_norm` -/

section LayerNormLemmas
variable {α : Type} [LinearOrderedField α]

theorem validIdx_append : ∀ (S1 i1 S2 i2 : List Nat), ValidIdx S1 i1 → ValidIdx S2 i2 →
    ValidIdx (S1 ++ S2) (i1 ++ i2)
  | [], [], _, _, _, h2 => h2
  | _ :: S1, _ :: i1, S2, i2, h1, h2 => ⟨h1.1, validIdx_append S1 i1 S2 i2 h1.2 h2⟩
  | [], _ :: _, _, _, h, _ => absurd h (by simp [ValidIdx])
  | _ :: _, [], _, _, h, _ => absurd h (by simp [ValidIdx])

theorem sum_map_standardize (m sd : α) : ∀ (xs : List α),
    (xs.map (fun v => (v - m) / sd * 1 + 0)).sum = (xs.sum - (xs.length : α) * m) / sd
  | [] => by simp
  | a :: xs => by
    simp only [List.map_cons, List.sum_cons, List.length_cons, sum_map_standardize m sd xs,
      Nat.cast_succ]
    ring

theorem sum_map_standardize_sq (m sd : α) : ∀ (xs : List α),
    ((xs.map (fun v => (v - m) / sd * 1 + 0)).map (fun y => (y - 0) ^ 2)).sum
      = (xs.map (fun v => (v - m) ^ 2)).sum / sd ^ 2
  | [] => by simp
  | a :: xs => by
    simp only [List.map_cons, List.sum_cons, sum_map_standardize_sq m sd xs]
    ring

theorem biasedVar_nonneg (xs : List α) : 0 ≤ biasedVar xs := by
  unfold biasedVar mean
  apply div_nonneg
  · apply List.sum_nonneg
    intro y hy
    obtain ⟨v, -, rfl⟩ := List.mem_map.mp hy
    exact sq_nonneg _
  · exact Nat.cast_nonneg _

/-- A list standardized with its own mean and a divisor `sd` has mean 0 and biased
variance `var / sd ^ 2`. -/
theorem standardize_moments (xs : List α) (sd : α) (hlen : 0 < xs.length) :
    mean (xs.map (fun v => (v - mean xs) / sd * 1 + 0)) = 0 ∧
      biasedVar (xs.map (fun v => (v - mean xs) / sd * 1 + 0)) = biasedVar xs / sd ^ 2 := by
  have hn : (xs.length : α) ≠ 0 := Nat.cast_ne_zero.mpr (by omega)
  have hm : mean (xs.map (fun v => (v - mean xs) / sd * 1 + 0)) = 0 := by
    have h0 : xs.sum - (xs.length : α) * mean xs = 0 := by
      unfold mean; field_simp
    rw [mean, sum_map_standardize, h0]; simp
  refine ⟨hm, ?_⟩
  rw [biasedVar, hm, mean, sum_map_standardize_sq]
  simp only [biasedVar, mean, List.length_map]
  ring

/-- The normalized region of the output of `layer_norm` with unit weight and zero bias:
the region of the input, standardized. -/
theorem layer_norm_region (E : Engine α) (x : Tensor α) (outer nshape : List Nat)
    (weight bias : Option (Tensor α)) (eps : α) (o : List Nat)
    (hx : x.sizes = outer ++ nshape) (ho : ValidIdx outer o)
    (hw : ∀ w ∈ weight, w.sizes = nshape ∧ ∀ idx, ValidIdx nshape idx → w.elem idx = 1)
    (hb : ∀ b ∈ bias, b.sizes = nshape ∧ ∀ idx, ValidIdx nshape idx → b.elem idx = 0) :
    ∃ out, layer_norm E x ⟨nshape, eps⟩ weight bias = .ok out ∧ out.sizes = x.sizes ∧
      region out nshape o = (region x nshape o).map (fun v =>
        (v - mean (region x nshape o)) / E.sqrt (biasedVar (region x nshape o) + eps) * 1 + 0) := by
  have hlead : x.dim - nshape.length = outer.length := by simp [Tensor.dim, hx]
  have hol : o.length = outer.length := validIdx_length outer o ho
  have hcond : nshape.length ≤ x.dim ∧ x.sizes.drop (x.dim - nshape.length) = nshape
      ∧ (∀ w ∈ weight, w.sizes = nshape) ∧ (∀ b ∈ bias, b.sizes = nshape) := by
    refine ⟨by simp [Tensor.dim, hx], ?_, fun w h => (hw w h).1, fun b h => (hb b h).1⟩
    rw [hlead, hx, List.drop_left]
  have hrun : layer_norm E x ⟨nshape, eps⟩ weight bias = .ok (Tensor.ofFn x.sizes (fun idx =>
      (x.elem idx - mean (region x nshape (idx.take (x.dim - nshape.length))))
          / E.sqrt (biasedVar (region x nshape (idx.take (x.dim - nshape.length))) + eps)
        * affineAt weight 1 (idx.drop (x.dim - nshape.length))
        + affineAt bias 0 (idx.drop (x.dim - nshape.length)))) := by
    simp only [layer_norm, detail.layer_norm, torch_layer_norm, if_pos hcond]
  refine ⟨_, hrun, rfl, ?_⟩
  simp only [region, List.map_map]
  apply List.map_congr_left
  intro j hj
  have hvu := validIdx_unravel nshape j (List.mem_range.mp hj)
  have hv : ValidIdx x.sizes (o ++ unravel nshape j) := hx ▸ validIdx_append _ _ _ _ ho hvu
  have ht : (o ++ unravel nshape j).take outer.length = o := by rw [← hol, List.take_left]
  have hdr : (o ++ unravel nshape j).drop outer.length = unravel nshape j := by
    rw [← hol, List.drop_left]
  have haw : affineAt weight 1 (unravel nshape j) = 1 := by
    cases weight with
    | none => rfl
    | some w => exact (hw w rfl).2 _ hvu
  have hab : affineAt bias 0 (unravel nshape j) = 0 := by
    cases bias with
    | none => rfl
    | some b => exact (hb b rfl).2 _ hvu
  simp only [Function.comp_apply]
  rw [elem_ofFn _ _ _ hv]
  simp only [hlead, ht, hdr, haw, hab, region]

end LayerNormLemmas

/-! ## The real power obeys the laws asked of the engine -/

/-- The real power obeys `PowLaws` at every exponent `p ≥ 1`. -/
theorem real_powLaws (sqrt : ℝ → ℝ) (p : ℝ) (hp : 1 ≤ p) :
    PowLaws (⟨fun a b => a ^ b, sqrt⟩ : Engine ℝ) p where
  div_pow := fun a b ha hb => Real.div_rpow ha hb p
  div_root := fun a b ha hb => Real.div_rpow ha hb (1 / p)
  pow_nonneg := fun a ha => Real.rpow_nonneg ha p
  root_pow := fun c hc => by
    show (c ^ p) ^ (1 / p) = c
    rw [← Real.rpow_mul hc.le, mul_one_div_cancel (by linarith), Real.rpow_one]

/-- The real power of a positive base is positive, and at least 1 when the base is at least
1 and the exponent is not negative. -/
theorem real_pow_pos_ge (beta : ℝ) :
    (∀ a : ℝ, 0 < a → 0 < a ^ beta) ∧ (0 ≤ beta → ∀ a : ℝ, 1 ≤ a → 1 ≤ a ^ beta) :=
  ⟨fun _ ha => Real.rpow_pos_of_pos ha beta, fun hb _ ha => Real.one_le_rpow ha hb⟩

/-- The executable engine obeys `PowLaws` at `p = 1`. -/
theorem ratEngine_powLaws_one : PowLaws ratEngine 1 where
  div_pow := fun _ _ _ _ => by simp [ratEngine]
  div_root := fun _ _ _ _ => by simp [ratEngine]
  pow_nonneg := fun a ha => by simpa [ratEngine] using ha
  root_pow := fun c _ => by simp [ratEngine]

/-! ## The properties C1 to C14 -/

section Properties
variable {α : Type} [LinearOrderedField α]

/-- C1: on a rank-3 input `x` of shape `(N, C, L)` and for a window `size ≥ 1`,
`detail::local_response_norm` returns the tensor `out` of that shape with
`out[n,c,l] = x[n,c,l] / (k + alpha * (1/size) * S) ^ beta`, where `S` sums `x[n,j,l]^2`
over the channels `j` from `c - size/2` to `c + (size-1)/2` that lie in `[0, C)`: channels
out of range add nothing and the divisor stays `size`.  For an even `size` the window
reaches one channel further back than forward. -/
theorem local_response_norm_rank3_formula (E : Engine α) (x : Tensor α) (N C L : Nat)
    (size : Int) (alpha beta k : α) (hx : x.sizes = [N, C, L]) (hs : 1 ≤ size) :
    ∃ out, detail.local_response_norm E x size alpha beta k = .ok out ∧
      out.sizes = [N, C, L] ∧
      (∀ n c l, n < N → c < C → l < L →
        out.elem [n, c, l] = x.elem [n, c, l]
          / E.pow (k + alpha * (1 / (size : α)) * channelWindowSumSq x C size n c l) beta) ∧
      (size % 2 = 0 → size / 2 = (size - 1) / 2 + 1) := by
  obtain ⟨f, hrun, hf⟩ := lrn_ok E x size alpha beta k (by simp [Tensor.dim, hx]) hs
  refine ⟨_, hrun, hx, ?_, fun h => by omega⟩
  intro n c l hn hc hl
  have hv : ValidIdx x.sizes [n, c, l] := by rw [hx]; exact ⟨hn, hc, hl, trivial⟩
  obtain ⟨s, rfl⟩ : ∃ s : Nat, size = (s : Int) := ⟨size.toNat, by omega⟩
  rw [elem_ofFn _ _ _ hv, hf n c [l] hv, Int.toNat_ofNat,
    windowAvg_eq_channelSum x N C L s n c l (by omega) hx]
  congr 2
  simp only [Int.cast_natCast]
  ring

/-- Witness of C1: a `1 × 4 × 2` input with the even window `size = 2`. -/
theorem local_response_norm_rank3_formula_witness :
    ∃ out, detail.local_response_norm ratEngine ⟨[1, 4, 2], [1, 2, 3, 4, 5, 6, 7, 8]⟩ 2 1 1 0
        = .ok out ∧
      out.sizes = [1, 4, 2] ∧
      (∀ n c l, n < 1 → c < 4 → l < 2 →
        out.elem [n, c, l] = (⟨[1, 4, 2], [1, 2, 3, 4, 5, 6, 7, 8]⟩ : Tensor ℚ).elem [n, c, l]
          / ratEngine.pow (0 + 1 * (1 / ((2 : Int) : ℚ))
              * channelWindowSumSq ⟨[1, 4, 2], [1, 2, 3, 4, 5, 6, 7, 8]⟩ 4 2 n c l) 1) ∧
      ((2 : Int) % 2 = 0 → (2 : Int) / 2 = (2 - 1) / 2 + 1) :=
  local_response_norm_rank3_formula ratEngine ⟨[1, 4, 2], [1, 2, 3, 4, 5, 6, 7, 8]⟩ 1 4 2 2 1 1 0
    rfl (by decide)

/-- C2: on an input of rank below 3 `detail::local_response_norm` fails with the
dimensionality error, whatever the elements, `size`, `alpha`, `beta` and `k` are, and returns
no tensor; on an input of rank at least 3 it never fails with the dimensionality error. -/
theorem local_response_norm_rank_check (E : Engine α) (x : Tensor α) (size : Int)
    (alpha beta k : α) :
    (x.dim < 3 →
      detail.local_response_norm E x size alpha beta k = .error (.dimensionality x.dim)) ∧
    (3 ≤ x.dim →
      ∀ d, detail.local_response_norm E x size alpha beta k ≠ .error (.dimensionality d)) := by
  constructor
  · intro h
    have e1 : ¬ (x.dim ≥ 3) := by omega
    simp only [detail.local_response_norm, bind, Except.bind, if_pos e1, throw, throwThe,
      MonadExceptOf.throw]
  · intro h3 d h
    rcases lrn_error_of_rank_ge E x size alpha beta k _ h3 h with h | h | h | h <;> cases h

/-- Witness of C2: a rank-2 input is refused, a rank-3 input is not. -/
theorem local_response_norm_rank_check_witness :
    detail.local_response_norm ratEngine ⟨[2, 4], [1, 2, 3, 4, 5, 6, 7, 8]⟩ 2 1 1 0
        = .error (.dimensionality 2) ∧
      ∀ d, detail.local_response_norm ratEngine ⟨[1, 4, 2], [1, 2, 3, 4, 5, 6, 7, 8]⟩ 2 1 1 0
        ≠ .error (.dimensionality d) :=
  ⟨(local_response_norm_rank_check ratEngine ⟨[2, 4], [1, 2, 3, 4, 5, 6, 7, 8]⟩ 2 1 1 0).1
      (by decide),
    (local_response_norm_rank_check ratEngine ⟨[1, 4, 2], [1, 2, 3, 4, 5, 6, 7, 8]⟩ 2 1 1 0).2
      (by decide)⟩

/-- C3: for `eps > 0` and an axis `dim` of the input, `detail::normalize` does not fail
and divides every element by `denom`, which is never below `eps` and never zero; on every
slice along `dim` whose Lp-norm is below `eps` (a zero norm included) `denom` is `eps`
and every element of the output slice is the input element divided by `eps`. -/
theorem normalize_floor (E : Engine α) (x : Tensor α) (p : α) (dim : Int) (eps : α)
    (out : Option (Tensor α)) (d : Nat) (heps : 0 < eps) (hd : wrapDim dim x.dim = .ok d) :
    ∃ denom r, detail.normalize_denom E x p dim eps = .ok denom ∧
      detail.normalize E x p dim eps out = .ok r ∧ r.result.sizes = x.sizes ∧
      ∀ idx, ValidIdx x.sizes idx →
        (r.result.elem idx = x.elem idx / denom.elem idx ∧ eps ≤ denom.elem idx ∧
          denom.elem idx ≠ 0) ∧
        (vnorm E p (x.slice d idx) < eps →
          denom.elem idx = eps ∧
          r.result.slice d idx = (x.slice d idx).map (fun v => v / eps)) := by
  obtain ⟨denom, q, h1, h2, h3, h4⟩ := normalize_ok E x p dim eps out d hd
  refine ⟨denom, _, h1, h2, h3, ?_⟩
  intro idx hv
  obtain ⟨hden, hq⟩ := h4 idx hv
  have hge : eps ≤ denom.elem idx := hden ▸ le_max_right _ _
  refine ⟨⟨hq, hge, (lt_of_lt_of_le heps hge).ne'⟩, ?_⟩
  intro hlt
  refine ⟨by rw [hden, max_eq_right hlt.le], ?_⟩
  show q.slice d idx = _
  simp only [Tensor.slice, h3, List.map_map]
  apply List.map_congr_left
  intro j hj
  have hvj := validIdx_set_lt x.sizes idx d j hv (List.mem_range.mp hj)
  obtain ⟨hdenj, hqj⟩ := h4 _ hvj
  have hsl : x.slice d (idx.set d j) = x.slice d idx := slice_set x d idx j
  simp only [Function.comp_apply]
  rw [hqj, hdenj, hsl, max_eq_right hlt.le]

/-- Witness of C3: the second row of the `2 × 2` input is zero, its norm is below
`eps = 1`, and the output row is the input row divided by `eps`. -/
theorem normalize_floor_witness :
    ∃ r, detail.normalize ratEngine ⟨[2, 2], [3, 4, 0, 0]⟩ 2 1 1 none = .ok r ∧
      r.result.slice 1 [1, 0]
        = ((⟨[2, 2], [3, 4, 0, 0]⟩ : Tensor ℚ).slice 1 [1, 0]).map (fun v => v / 1) := by
  obtain ⟨denom, r, -, h2, -, h4⟩ :=
    normalize_floor ratEngine ⟨[2, 2], [3, 4, 0, 0]⟩ 2 1 1 none 1 (by decide!) (by decide)
  exact ⟨r, h2, ((h4 [1, 0] (by decide)).2 (by decide!)).2⟩

/-- C4: called with an output tensor `y`, `detail::normalize` (and `normalize`) returns,
and leaves in `y`, exactly the tensor the call without an output tensor returns: both
branches compute the quotient `input / denom` with
`denom = input.norm(p, dim, true).clamp_min(eps).expand_as(input)`. -/
theorem normalize_out_equiv (E : Engine α) (x y : Tensor α) (p : α) (dim : Int) (eps : α) :
    detail.normalize E x p dim eps (some y)
        = (detail.normalize E x p dim eps none).map (fun r => ⟨r.result, some r.result⟩) ∧
      normalize E x ⟨p, dim, eps⟩ (some y)
        = (normalize E x ⟨p, dim, eps⟩ none).map (fun r => ⟨r.result, some r.result⟩) ∧
      detail.normalize E x p dim eps none
        = (detail.normalize_denom E x p dim eps).bind
            (fun denom => (x.div denom).map (fun q => ⟨q, none⟩)) := by
  have h : detail.normalize E x p dim eps (some y)
      = (detail.normalize E x p dim eps none).map (fun r => ⟨r.result, some r.result⟩) := by
    cases hN : Tensor.norm E x p dim with
    | error e => simp [detail.normalize, hN, bind, Except.bind, Except.map]
    | ok nrm =>
      cases hE : (nrm.clamp_min eps).expand_as x with
      | error e => simp [detail.normalize, hN, hE, bind, Except.bind, Except.map]
      | ok denom =>
        cases hQ : x.div denom <;>
          simp [detail.normalize, Tensor.div_out, hN, hE, hQ, bind, Except.bind, Except.map,
            pure, Except.pure]
  refine ⟨h, h, ?_⟩
  cases hN : Tensor.norm E x p dim with
  | error e => simp [detail.normalize, detail.normalize_denom, hN, bind, Except.bind]
  | ok nrm =>
    cases hE : (nrm.clamp_min eps).expand_as x with
    | error e => simp [detail.normalize, detail.normalize_denom, hN, hE, bind, Except.bind]
    | ok denom =>
      cases hQ : x.div denom <;>
        simp [detail.normalize, detail.normalize_denom, hN, hE, hQ, bind, Except.bind,
          Except.map, pure, Except.pure]

/-- C5, as amended: for `p = 2`, an axis `dim` of the input and every `eps ≤ 1`,
`normalize` returns unchanged every slice along `dim` whose L2-norm is 1. -/
theorem normalize_unit_slice (E : Engine α) (x : Tensor α) (dim : Int) (eps : α)
    (out : Option (Tensor α)) (d : Nat) (idx : List Nat) (heps : eps ≤ 1)
    (hd : wrapDim dim x.dim = .ok d) (hv : ValidIdx x.sizes idx)
    (hn : vnorm E 2 (x.slice d idx) = 1) :
    ∃ r, normalize E x ⟨2, dim, eps⟩ out = .ok r ∧ r.result.slice d idx = x.slice d idx := by
  obtain ⟨denom, q, -, h2, h3, h4⟩ := normalize_ok E x 2 dim eps out d hd
  refine ⟨_, h2, ?_⟩
  show q.slice d idx = _
  simp only [Tensor.slice, h3]
  apply List.map_congr_left
  intro j hj
  have hvj := validIdx_set_lt x.sizes idx d j hv (List.mem_range.mp hj)
  obtain ⟨hdenj, hqj⟩ := h4 _ hvj
  have hsl : x.slice d (idx.set d j) = x.slice d idx := slice_set x d idx j
  rw [hqj, hdenj, hsl, hn, max_eq_left heps, div_one]

/-- Witness of C5, as amended: the row `(1, 0)` with `eps = 1/2`. -/
theorem normalize_unit_slice_witness :
    ∃ r, normalize ratEngine ⟨[1, 2], [1, 0]⟩ ⟨2, 1, 1 / 2⟩ none = .ok r ∧
      r.result.slice 1 [0, 0] = (⟨[1, 2], [1, 0]⟩ : Tensor ℚ).slice 1 [0, 0] :=
  normalize_unit_slice ratEngine ⟨[1, 2], [1, 0]⟩ 1 (1 / 2) none 1 [0, 0] (by decide!)
    (by decide) (by decide) (by decide!)

/-- Counterexample to C5 as stated: `eps = 2` is a valid configuration, the row `(1, 0)`
has L2-norm 1, and `normalize` returns `(1/2, 0)`. -/
theorem normalize_unit_slice_counterexample :
    (0 : ℚ) < 2 ∧ vnorm ratEngine 2 ((⟨[1, 2], [1, 0]⟩ : Tensor ℚ).slice 1 [0, 0]) = 1 ∧
      normalize ratEngine ⟨[1, 2], [1, 0]⟩ ⟨2, 1, 2⟩ none = .ok ⟨⟨[1, 2], [1 / 2, 0]⟩, none⟩ ∧
      (⟨[1, 2], [1 / 2, 0]⟩ : Tensor ℚ).slice 1 [0, 0]
        ≠ (⟨[1, 2], [1, 0]⟩ : Tensor ℚ).slice 1 [0, 0] := by
  decide!

/-- C6: with `alpha = 0`, on every input of rank at least 3 and for every window
`size ≥ 1`, `detail::local_response_norm` returns exactly `input / (k ^ beta)` elementwise;
the result is the same tensor for every window size. -/
theorem local_response_norm_alpha_zero (E : Engine α) (x : Tensor α) (size : Int) (beta k : α)
    (h3 : 3 ≤ x.dim) (hs : 1 ≤ size) :
    detail.local_response_norm E x size 0 beta k
      = .ok (Tensor.ofFn x.sizes (fun idx => x.elem idx / E.pow k beta)) := by
  obtain ⟨f, hrun, hf⟩ := lrn_ok E x size 0 beta k h3 hs
  rw [hrun]
  congr 1
  apply ofFn_congr
  intro idx hv
  obtain ⟨n, c, tl, rfl⟩ := validIdx_rank_ge_two x.sizes idx (by unfold Tensor.dim at h3; omega) hv
  rw [hf n c tl hv, mul_zero, zero_add]

/-- Witness of C6: a `1 × 2 × 2 × 2` input with the window `size = 3`. -/
theorem local_response_norm_alpha_zero_witness :
    detail.local_response_norm ratEngine ⟨[1, 2, 2, 2], [1, 2, 3, 4, 5, 6, 7, 8]⟩ 3 0 2 3
      = .ok (Tensor.ofFn [1, 2, 2, 2] (fun idx =>
          (⟨[1, 2, 2, 2], [1, 2, 3, 4, 5, 6, 7, 8]⟩ : Tensor ℚ).elem idx / ratEngine.pow 3 2)) :=
  local_response_norm_alpha_zero ratEngine ⟨[1, 2, 2, 2], [1, 2, 3, 4, 5, 6, 7, 8]⟩ 3 2 3
    (by decide) (by decide)

/-- C7: with `size = 1`, on every input of rank at least 3, `detail::local_response_norm`
pads with `size / 2 = 0` channels before and `(size - 1) / 2 = 0` channels after and
returns, elementwise, `input / ((input^2 * alpha + k) ^ beta)`. -/
theorem local_response_norm_size_one (E : Engine α) (x : Tensor α) (alpha beta k : α)
    (h3 : 3 ≤ x.dim) :
    (1 : Int).tdiv 2 = 0 ∧ ((1 : Int) - 1).tdiv 2 = 0 ∧
    detail.local_response_norm E x 1 alpha beta k
      = .ok (Tensor.ofFn x.sizes (fun idx =>
          x.elem idx / E.pow ((x.elem idx) ^ 2 * alpha + k) beta)) := by
  refine ⟨by decide, by decide, ?_⟩
  obtain ⟨f, hrun, hf⟩ := lrn_ok E x 1 alpha beta k h3 (le_refl 1)
  rw [hrun]
  congr 1
  apply ofFn_congr
  intro idx hv
  obtain ⟨n, c, tl, rfl⟩ := validIdx_rank_ge_two x.sizes idx (by unfold Tensor.dim at h3; omega) hv
  have hc : c < x.sizes.getD 1 0 := validIdx_channel_lt x.sizes n c tl hv
  rw [hf n c tl hv]
  have hw : lrnWindowAvg x (1 : Int).toNat n c tl = (x.elem (n :: c :: tl)) ^ 2 := by
    have h1 : (1 : Int).toNat = 1 := rfl
    have h2 : List.range 1 = [0] := rfl
    have h3 : (1 : Nat) / 2 = 0 := rfl
    simp only [lrnWindowAvg, h1, h2, h3, List.map_cons, List.map_nil, List.sum_cons,
      List.sum_nil, Nat.add_zero, Nat.zero_add, Nat.sub_zero, Nat.zero_le, true_and, if_pos hc,
      Nat.cast_one, div_one, add_zero, pow_two]
  rw [hw]

/-- Witness of C7: a `1 × 2 × 2 × 2` input. -/
theorem local_response_norm_size_one_witness :
    (1 : Int).tdiv 2 = 0 ∧ ((1 : Int) - 1).tdiv 2 = 0 ∧
    detail.local_response_norm ratEngine ⟨[1, 2, 2, 2], [1, 2, 3, 4, 5, 6, 7, 8]⟩ 1 2 3 5
      = .ok (Tensor.ofFn [1, 2, 2, 2] (fun idx =>
          (⟨[1, 2, 2, 2], [1, 2, 3, 4, 5, 6, 7, 8]⟩ : Tensor ℚ).elem idx
            / ratEngine.pow (((⟨[1, 2, 2, 2], [1, 2, 3, 4, 5, 6, 7, 8]⟩ : Tensor ℚ).elem idx) ^ 2
                * 2 + 5) 3)) :=
  local_response_norm_size_one ratEngine ⟨[1, 2, 2, 2], [1, 2, 3, 4, 5, 6, 7, 8]⟩ 2 3 5
    (by decide)

/-- C8, as amended: under the stated semantics of `layer_norm`, with weight all ones and
bias all zeros (or absent), for every input and every outer index the mean of the output
over the normalized region is 0 and its biased variance is `var / (var + eps)`, `var` the
biased variance of the input over the region: it misses 1 by `eps / (var + eps)`, which is
at most `eps / var` when `var > 0`. -/
theorem layer_norm_standardizes (E : Engine α) (x : Tensor α) (outer nshape : List Nat)
    (weight bias : Option (Tensor α)) (eps : α) (o : List Nat)
    (hx : x.sizes = outer ++ nshape) (hn : 0 < nshape.prod) (ho : ValidIdx outer o)
    (hw : ∀ w ∈ weight, w.sizes = nshape ∧ ∀ idx, ValidIdx nshape idx → w.elem idx = 1)
    (hb : ∀ b ∈ bias, b.sizes = nshape ∧ ∀ idx, ValidIdx nshape idx → b.elem idx = 0)
    (heps : 0 < eps)
    (hsq : E.sqrt (biasedVar (region x nshape o) + eps) ^ 2 = biasedVar (region x nshape o) + eps) :
    ∃ out, layer_norm E x ⟨nshape, eps⟩ weight bias = .ok out ∧ out.sizes = x.sizes ∧
      mean (region out nshape o) = 0 ∧
      biasedVar (region out nshape o)
        = biasedVar (region x nshape o) / (biasedVar (region x nshape o) + eps) ∧
      1 - biasedVar (region out nshape o) = eps / (biasedVar (region x nshape o) + eps) ∧
      (0 < biasedVar (region x nshape o) →
        |biasedVar (region out nshape o) - 1| ≤ eps / biasedVar (region x nshape o)) := by
  obtain ⟨out, hrun, hsz, hreg⟩ := layer_norm_region E x outer nshape weight bias eps o hx ho hw hb
  have hlen : 0 < (region x nshape o).length := by simpa [region] using hn
  obtain ⟨hm, hv⟩ := standardize_moments (region x nshape o)
    (E.sqrt (biasedVar (region x nshape o) + eps)) hlen
  have hv0 := biasedVar_nonneg (region x nshape o)
  have hpos : 0 < biasedVar (region x nshape o) + eps := by linarith
  have hvar : biasedVar (region out nshape o)
      = biasedVar (region x nshape o) / (biasedVar (region x nshape o) + eps) := by
    rw [hreg, hv, hsq]
  have hone : 1 - biasedVar (region out nshape o)
      = eps / (biasedVar (region x nshape o) + eps) := by
    rw [hvar]; field_simp
  refine ⟨out, hrun, hsz, by rw [hreg, hm], hvar, hone, ?_⟩
  intro hvpos
  have h1 : biasedVar (region out nshape o) - 1
      = -(eps / (biasedVar (region x nshape o) + eps)) := by rw [← hone]; ring
  rw [h1, abs_neg, abs_of_nonneg (div_nonneg heps.le hpos.le)]
  exact div_le_div_of_nonneg_left heps.le hvpos (by linarith)

/-- Witness of C8, as amended: the row `(1, 3)` with `eps = 3`: variance 1, and
`sqrt (1 + 3) = 2`. -/
theorem layer_norm_standardizes_witness :
    ∃ out, layer_norm ratEngine ⟨[1, 2], [1, 3]⟩ ⟨[2], 3⟩ none none = .ok out ∧
      mean (region out [2] [0]) = 0 ∧
      biasedVar (region out [2] [0])
        = biasedVar (region (⟨[1, 2], [1, 3]⟩ : Tensor ℚ) [2] [0])
          / (biasedVar (region (⟨[1, 2], [1, 3]⟩ : Tensor ℚ) [2] [0]) + 3) := by
  obtain ⟨out, h1, -, h2, h3, -⟩ :=
    layer_norm_standardizes ratEngine ⟨[1, 2], [1, 3]⟩ [1] [2] none none 3 [0] rfl (by decide)
      (by decide) (by simp) (by simp) (by decide!) (by decide!)
  exact ⟨out, h1, h2, h3⟩

/-- Counterexample to C8 as stated: on the constant row `(5, 5)`, with unit weight, zero
bias and `eps = 1e-5`, the output is the zero row: its biased variance is 0, at distance 1
from 1, which is `100000 * eps`. -/
theorem layer_norm_standardizes_counterexample :
    layer_norm ratEngine ⟨[1, 2], [5, 5]⟩ ⟨[2], 1 / 100000⟩
        (some ⟨[2], [1, 1]⟩) (some ⟨[2], [0, 0]⟩) = .ok ⟨[1, 2], [0, 0]⟩ ∧
      biasedVar (region (⟨[1, 2], [0, 0]⟩ : Tensor ℚ) [2] [0]) = 0 ∧
      ¬ (|biasedVar (region (⟨[1, 2], [0, 0]⟩ : Tensor ℚ) [2] [0]) - 1|
          ≤ 99999 * (1 / 100000 : ℚ)) := by
  decide!

/-- C9, as amended: `normalize` does not inspect `eps`: its only failure is an axis `dim`
that is out of range, and on an axis of the input it returns, for every `eps` (also for
`eps ≤ 0`), the input divided elementwise by `max (norm of the slice) eps`. -/
theorem normalize_any_eps (E : Engine α) (x : Tensor α) (p : α) (dim : Int) (eps : α)
    (out : Option (Tensor α)) :
    (∀ e, normalize E x ⟨p, dim, eps⟩ out = .error e ↔ wrapDim dim x.dim = .error e) ∧
    (∀ d, wrapDim dim x.dim = .ok d →
      ∃ r, normalize E x ⟨p, dim, eps⟩ out = .ok r ∧ r.result.sizes = x.sizes ∧
        ∀ idx, ValidIdx x.sizes idx →
          r.result.elem idx = x.elem idx / max (vnorm E p (x.slice d idx)) eps) := by
  have h2 : ∀ d, wrapDim dim x.dim = .ok d →
      ∃ r, normalize E x ⟨p, dim, eps⟩ out = .ok r ∧ r.result.sizes = x.sizes ∧
        ∀ idx, ValidIdx x.sizes idx →
          r.result.elem idx = x.elem idx / max (vnorm E p (x.slice d idx)) eps := by
    intro d hd
    obtain ⟨denom, q, -, h2, h3, h4⟩ := normalize_ok E x p dim eps out d hd
    exact ⟨_, h2, h3, fun idx hv => by rw [(h4 idx hv).2, (h4 idx hv).1]⟩
  refine ⟨fun e => ?_, h2⟩
  cases hd : wrapDim dim x.dim with
  | ok d =>
    obtain ⟨r, hr, -⟩ := h2 d hd
    simp [hr]
  | error e2 =>
    have : normalize E x ⟨p, dim, eps⟩ out = .error e2 := by
      cases out <;>
        simp [normalize, detail.normalize, Tensor.norm, hd, bind, Except.bind]
    simp [this]

/-- Witness of C9, as amended: `eps = -1` on the row `(3, 4)` with `p = 1`. -/
theorem normalize_any_eps_witness :
    ∃ r, normalize ratEngine ⟨[1, 2], [3, 4]⟩ ⟨1, 1, -1⟩ none = .ok r ∧
      r.result.sizes = [1, 2] :=
  let ⟨r, h1, h2, _⟩ := (normalize_any_eps ratEngine ⟨[1, 2], [3, 4]⟩ 1 1 (-1) none).2 1
    (by decide)
  ⟨r, h1, h2⟩

/-- Counterexample to C9 as stated: with `eps = 0` the call does not fail: on the row
`(3, 4)` with `p = 1` it returns `(3/7, 4/7)`. -/
theorem normalize_any_eps_counterexample :
    (0 : ℚ) ≤ 0 ∧
      normalize ratEngine ⟨[1, 2], [3, 4]⟩ ⟨1, 1, 0⟩ none
        = .ok ⟨⟨[1, 2], [3 / 7, 4 / 7]⟩, none⟩ := by
  decide!

/-- C10, as amended: a freshly constructed `MultiheadAttentionOptions(embed_dim, num_heads)`
has `kdim()` and `vdim()` equal to `embed_dim` (the constructor body replaces the empty
default), `embed_dim()` and `num_heads()` equal to the arguments, `dropout()` 0.0, `bias()`
true, and `add_bias_kv()` and `add_zero_attn()` false. -/
theorem multiheadAttentionOptions_fresh (embed_dim num_heads : Int) :
    (MultiheadAttentionOptions.new embed_dim num_heads).kdim = some embed_dim ∧
    (MultiheadAttentionOptions.new embed_dim num_heads).vdim = some embed_dim ∧
    (MultiheadAttentionOptions.new embed_dim num_heads).embed_dim = embed_dim ∧
    (MultiheadAttentionOptions.new embed_dim num_heads).num_heads = num_heads ∧
    (MultiheadAttentionOptions.new embed_dim num_heads).dropout = 0 ∧
    (MultiheadAttentionOptions.new embed_dim num_heads).bias = true ∧
    (MultiheadAttentionOptions.new embed_dim num_heads).add_bias_kv = false ∧
    (MultiheadAttentionOptions.new embed_dim num_heads).add_zero_attn = false :=
  ⟨rfl, rfl, rfl, rfl, rfl, rfl, rfl, rfl⟩

/-- Counterexample to C10 as stated: `MultiheadAttentionOptions(8, 2)` has `kdim()` and
`vdim()` equal to 8, not `c10::nullopt`. -/
theorem multiheadAttentionOptions_fresh_counterexample :
    (MultiheadAttentionOptions.new 8 2).kdim ≠ none ∧
      (MultiheadAttentionOptions.new 8 2).vdim ≠ none ∧
      (MultiheadAttentionOptions.new 8 2).kdim = some 8 ∧
      (MultiheadAttentionOptions.new 8 2).vdim = some 8 := by
  decide

/-- C11: on an input `x` of shape `(N, C, d2, d3, ...)` and for a window `size ≥ 1`, the
branch of rank at least 4 of `detail::local_response_norm` returns what the rank-3 branch
returns on `x` viewed as `(N, C, d2 * d3 * ...)`, viewed back under the shape of `x`; and the
output at a spatial position depends only on the channels of the input at that position. -/
theorem local_response_norm_rank4_as_rank3 (E : Engine α) (x : Tensor α) (N C D d3 : Nat)
    (T : List Nat) (size : Int) (alpha beta k : α)
    (hx : x.sizes = N :: C :: D :: d3 :: T) (hs : 1 ≤ size) :
    ∃ x3 out3 out : Tensor α,
      x.view ([N, C, (D :: d3 :: T).prod].map Int.ofNat) = .ok x3 ∧
      x3.sizes = [N, C, (D :: d3 :: T).prod] ∧
      detail.local_response_norm E x3 size alpha beta k = .ok out3 ∧
      out3.view (x.sizes.map Int.ofNat) = .ok out ∧
      detail.local_response_norm E x size alpha beta k = .ok out ∧
      ∀ (y : Tensor α) (n : Nat) (tl : List Nat), y.sizes = x.sizes →
        (∀ j, j < C → y.elem (n :: j :: tl) = x.elem (n :: j :: tl)) →
        ∃ outy, detail.local_response_norm E y size alpha beta k = .ok outy ∧
          ∀ c, ValidIdx x.sizes (n :: c :: tl) → outy.elem (n :: c :: tl) = out.elem (n :: c :: tl) := by
  have h4 : 3 ≤ x.dim := by simp [Tensor.dim, hx]
  have hprod : [N, C, (D :: d3 :: T).prod].prod = x.sizes.prod := by
    rw [hx]; simp only [List.prod_cons, List.prod_nil, Nat.mul_one]
  obtain ⟨f, hrun, hf⟩ := lrn_ok E x size alpha beta k h4 hs
  obtain ⟨f3, hrun3, hf3⟩ := lrn_ok E (⟨[N, C, (D :: d3 :: T).prod], x.data⟩ : Tensor α) size
    alpha beta k (by simp [Tensor.dim]) hs
  have hback := view_nat (Tensor.ofFn [N, C, (D :: d3 :: T).prod] f3) x.sizes hprod.symm
  have heq : (⟨x.sizes, (Tensor.ofFn [N, C, (D :: d3 :: T).prod] f3).data⟩ : Tensor α)
      = Tensor.ofFn x.sizes f := by
    simp only [Tensor.ofFn, Tensor.mk.injEq, true_and, hprod]
    apply List.map_congr_left
    intro q hq
    have hq2 : q < x.sizes.prod := List.mem_range.mp hq
    have hv := validIdx_unravel x.sizes q hq2
    obtain ⟨n, c, tl, hidx⟩ := validIdx_rank_ge_two x.sizes _
      (by unfold Tensor.dim at h4; omega) hv
    have hv2 : ValidIdx (N :: C :: D :: d3 :: T) (n :: c :: tl) := by rw [← hx, ← hidx]; exact hv
    obtain ⟨hn, hc, htl⟩ := hv2
    have hrav : ∀ j, ravel [N, C, (D :: d3 :: T).prod] [n, j, ravel (D :: d3 :: T) tl]
        = ravel x.sizes (n :: j :: tl) := by
      intro j; rw [hx]; simp only [ravel, List.prod_cons, List.prod_nil]; ring
    have hlt := ravel_lt _ _ htl
    have hq3 : q = ravel [N, C, (D :: d3 :: T).prod] [n, c, ravel (D :: d3 :: T) tl] := by
      rw [hrav c, ← hidx, ravel_unravel x.sizes q hq2]
    have hv3 : ValidIdx [N, C, (D :: d3 :: T).prod] [n, c, ravel (D :: d3 :: T) tl] :=
      ⟨hn, hc, hlt, trivial⟩
    have hel : ∀ j, (⟨[N, C, (D :: d3 :: T).prod], x.data⟩ : Tensor α).elem
        [n, j, ravel (D :: d3 :: T) tl] = x.elem (n :: j :: tl) := by
      intro j; simp only [Tensor.elem, hrav j]
    rw [hidx, hf n c tl (hidx ▸ hv)]
    conv_lhs => rw [hq3, unravel_ravel _ _ hv3]
    rw [hf3 n c _ hv3, hel c]
    simp only [lrnWindowAvg, hel, hx, List.getD_cons_zero, List.getD_cons_succ]
  refine ⟨⟨[N, C, (D :: d3 :: T).prod], x.data⟩, Tensor.ofFn [N, C, (D :: d3 :: T).prod] f3,
    Tensor.ofFn x.sizes f, view_nat x _ hprod, rfl, hrun3, ?_, hrun, ?_⟩
  · rw [hback, heq]
  · intro y n tl hy hcol
    obtain ⟨fy, hruny, hfy⟩ := lrn_ok E y size alpha beta k (by rw [Tensor.dim, hy]; exact h4) hs
    refine ⟨_, hruny, ?_⟩
    intro c hv
    have hvy : ValidIdx y.sizes (n :: c :: tl) := hy ▸ hv
    have hc : c < C := by
      have := validIdx_channel_lt x.sizes n c tl hv
      simpa [hx] using this
    rw [elem_ofFn _ _ _ hvy, elem_ofFn _ _ _ hv, hfy n c tl hvy, hf n c tl hv, hcol c hc]
    have hw : lrnWindowAvg y size.toNat n c tl = lrnWindowAvg x size.toNat n c tl := by
      simp only [lrnWindowAvg, hy, hx, List.getD_cons_zero, List.getD_cons_succ]
      congr 2
      apply List.map_congr_left
      intro o _
      by_cases hcond : size.toNat / 2 ≤ c + o ∧ c + o < size.toNat / 2 + C
      · rw [if_pos hcond, if_pos hcond, hcol _ (by omega)]
      · rw [if_neg hcond, if_neg hcond]
    rw [hw]

/-- Witness of C11: a `1 × 2 × 2 × 2` input with the window `size = 2`. -/
theorem local_response_norm_rank4_as_rank3_witness :
    ∃ x3 out3 out : Tensor ℚ,
      (⟨[1, 2, 2, 2], [1, 2, 3, 4, 5, 6, 7, 8]⟩ : Tensor ℚ).view
          ([1, 2, ([2, 2] : List Nat).prod].map Int.ofNat) = .ok x3 ∧
      detail.local_response_norm ratEngine x3 2 1 1 0 = .ok out3 ∧
      out3.view (([1, 2, 2, 2] : List Nat).map Int.ofNat) = .ok out ∧
      detail.local_response_norm ratEngine ⟨[1, 2, 2, 2], [1, 2, 3, 4, 5, 6, 7, 8]⟩ 2 1 1 0
        = .ok out :=
  let ⟨x3, out3, out, h1, _, h3, h4, h5, _⟩ :=
    local_response_norm_rank4_as_rank3 ratEngine ⟨[1, 2, 2, 2], [1, 2, 3, 4, 5, 6, 7, 8]⟩
      1 2 2 2 [] 2 1 1 0 rfl (by decide)
  ⟨x3, out3, out, h1, h3, h4, h5⟩

/-- C12: on an input of rank at least 3 with `C` channels and for a window `size ≥ 1`, the
padded channel axis has `C + size/2 + (size-1)/2 = C + size - 1` entries, the pooling leaves
`C` windows, the pooled tensor has the element count of the input (so the final
`view(sizes)` is admissible), and the divisor and the output of
`detail::local_response_norm` have exactly the shape of the input. -/
theorem local_response_norm_shape (E : Engine α) (x : Tensor α) (size : Int) (alpha beta k : α)
    (h3 : 3 ≤ x.dim) (hs : 1 ≤ size) :
    ((x.sizes.getD 1 0 : Int) + size.tdiv 2 + (size - 1).tdiv 2 = x.sizes.getD 1 0 + size - 1) ∧
    ∃ P A Dv out : Tensor α,
      detail.lrn_padded x size = .ok P ∧
      P.sizes.getD 2 0 = x.sizes.getD 1 0 + size.toNat - 1 ∧
      detail.lrn_pooled x size = .ok A ∧
      A.sizes.getD 1 0 = P.sizes.getD 2 0 + 1 - size.toNat ∧
      A.sizes.getD 1 0 = x.sizes.getD 1 0 ∧
      A.numel = x.numel ∧
      detail.lrn_div x size = .ok Dv ∧ Dv.sizes = x.sizes ∧
      detail.local_response_norm E x size alpha beta k = .ok out ∧ out.sizes = x.sizes := by
  constructor
  · rw [Int.tdiv_eq_ediv (by omega) (by omega), Int.tdiv_eq_ediv (by omega) (by omega)]
    omega
  · obtain ⟨P, A, Dv, h1, h2, h4, h5, h6, h7, h8, -⟩ := lrn_stages x size h3 hs
    obtain ⟨f, hrun, -⟩ := lrn_ok E x size alpha beta k h3 hs
    exact ⟨P, A, Dv, _, h1, h2, h4, by rw [h5, h2]; omega, h5, h6, h7, h8, hrun, rfl⟩

/-- Witness of C12: a `1 × 3 × 2 × 2` input with the even window `size = 4`. -/
theorem local_response_norm_shape_witness :
    ∃ P out : Tensor ℚ,
      detail.lrn_padded ⟨[1, 3, 2, 2], [1, 2, 3, 4, 5, 6, 7, 8, 9, 10, 11, 12]⟩ 4 = .ok P ∧
      P.sizes.getD 2 0 = 3 + 4 - 1 ∧
      detail.local_response_norm ratEngine ⟨[1, 3, 2, 2], [1, 2, 3, 4, 5, 6, 7, 8, 9, 10, 11, 12]⟩
        4 1 1 1 = .ok out ∧
      out.sizes = [1, 3, 2, 2] :=
  let ⟨_, P, _, _, out, h1, h2, _, _, _, _, _, _, h9, h10⟩ :=
    local_response_norm_shape ratEngine ⟨[1, 3, 2, 2], [1, 2, 3, 4, 5, 6, 7, 8, 9, 10, 11, 12]⟩
      4 1 1 1 (by decide) (by decide)
  ⟨P, out, h1, h2, h9, h10⟩

/-- C13: for `eps > 0`, an axis `dim` of the input and a power that obeys the laws of the
real power at `p` (as the real power does for every `p ≥ 1`): a slice of the output of
`detail::normalize` along `dim` has Lp-norm exactly 1 when the input slice has norm at
least `eps`, and Lp-norm `(input norm) / eps < 1` when the input slice has norm below
`eps`; no output slice has Lp-norm above 1. -/
theorem normalize_slice_norm (E : Engine α) (x : Tensor α) (p : α) (dim : Int) (eps : α)
    (out : Option (Tensor α)) (d : Nat) (idx : List Nat) (hlaws : PowLaws E p) (heps : 0 < eps)
    (hd : wrapDim dim x.dim = .ok d) (hv : ValidIdx x.sizes idx) :
    ∃ r, detail.normalize E x p dim eps out = .ok r ∧
      (eps ≤ vnorm E p (x.slice d idx) → vnorm E p (r.result.slice d idx) = 1) ∧
      (vnorm E p (x.slice d idx) < eps →
        vnorm E p (r.result.slice d idx) = vnorm E p (x.slice d idx) / eps ∧
        vnorm E p (r.result.slice d idx) < 1) ∧
      vnorm E p (r.result.slice d idx) ≤ 1 := by
  obtain ⟨r, hrun, hsl⟩ := normalize_slice E x p dim eps out d idx hd hv
  have hmax : 0 < max (vnorm E p (x.slice d idx)) eps := lt_max_of_lt_right heps
  have hn : vnorm E p (r.result.slice d idx)
      = vnorm E p (x.slice d idx) / max (vnorm E p (x.slice d idx)) eps := by
    rw [hsl, vnorm_div E p hlaws _ _ hmax]
  have hge : eps ≤ vnorm E p (x.slice d idx) → vnorm E p (r.result.slice d idx) = 1 := by
    intro h
    rw [hn, max_eq_left h, div_self (lt_of_lt_of_le heps h).ne']
  have hlt : vnorm E p (x.slice d idx) < eps →
      vnorm E p (r.result.slice d idx) = vnorm E p (x.slice d idx) / eps ∧
      vnorm E p (r.result.slice d idx) < 1 := by
    intro h
    have h1 : vnorm E p (r.result.slice d idx) = vnorm E p (x.slice d idx) / eps := by
      rw [hn, max_eq_right h.le]
    exact ⟨h1, by rw [h1, div_lt_one heps]; exact h⟩
  refine ⟨r, hrun, hge, hlt, ?_⟩
  rcases le_or_lt eps (vnorm E p (x.slice d idx)) with h | h
  · exact (hge h).le
  · exact (hlt h).2.le

/-- Witness of C13: with `p = 1` and `eps = 1` the row `(3, 4)` of norm 7 is returned with
norm 1. -/
theorem normalize_slice_norm_witness :
    ∃ r, detail.normalize ratEngine ⟨[2, 2], [3, 4, 0, 0]⟩ 1 1 1 none = .ok r ∧
      vnorm ratEngine 1 (r.result.slice 1 [0, 0]) = 1 :=
  let ⟨r, h1, h2, _⟩ := normalize_slice_norm ratEngine ⟨[2, 2], [3, 4, 0, 0]⟩ 1 1 1 none 1 [0, 0]
    ratEngine_powLaws_one (by decide!) (by decide) (by decide)
  ⟨r, h1, h2 (by decide!)⟩

/-- C14: on an input of rank at least 3, for a window `size ≥ 1`, `alpha ≥ 0` and `k > 0`,
every element of the local `div` of `detail::local_response_norm` is non-negative, so
every element of the divisor before the power, `div * alpha + k`, is at least `k` and
positive; with a power that is positive on positive bases the final division never
divides by zero, and with a power that is at least 1 on bases at least 1 (`beta ≥ 0`) and
`k ≥ 1` every element of the output is at most the input element in absolute value. -/
theorem local_response_norm_divisor_pos (E : Engine α) (x : Tensor α) (size : Int)
    (alpha beta k : α) (h3 : 3 ≤ x.dim) (hs : 1 ≤ size) (halpha : 0 ≤ alpha) (hk : 0 < k)
    (hpos : ∀ a : α, 0 < a → 0 < E.pow a beta)
    (hone : 0 ≤ beta → ∀ a : α, 1 ≤ a → 1 ≤ E.pow a beta) :
    ∃ Dv out : Tensor α, detail.lrn_div x size = .ok Dv ∧
      detail.local_response_norm E x size alpha beta k = .ok out ∧
      ∀ idx, ValidIdx x.sizes idx →
        0 ≤ Dv.elem idx ∧ k ≤ Dv.elem idx * alpha + k ∧ 0 < Dv.elem idx * alpha + k ∧
        out.elem idx = x.elem idx / E.pow (Dv.elem idx * alpha + k) beta ∧
        E.pow (Dv.elem idx * alpha + k) beta ≠ 0 ∧
        (0 ≤ beta → 1 ≤ k → |out.elem idx| ≤ |x.elem idx|) := by
  obtain ⟨Dv, out, hD, -, hrun, -, hel⟩ := lrn_out_of_div E x size alpha beta k h3 hs
  refine ⟨Dv, out, hD, hrun, ?_⟩
  intro idx hv
  obtain ⟨h0, hout⟩ := hel idx hv
  have hk2 : k ≤ Dv.elem idx * alpha + k := le_add_of_nonneg_left (mul_nonneg h0 halpha)
  have hp0 : 0 < Dv.elem idx * alpha + k := lt_of_lt_of_le hk hk2
  refine ⟨h0, hk2, hp0, hout, (hpos _ hp0).ne', ?_⟩
  intro hbeta hk1
  have h1 : 1 ≤ E.pow (Dv.elem idx * alpha + k) beta := hone hbeta _ (le_trans hk1 hk2)
  rw [hout, abs_div, abs_of_pos (hpos _ hp0)]
  exact div_le_self (abs_nonneg _) h1

/-- Witness of C14: a `1 × 4 × 2` input with `size = 2`, `alpha = 1`, `beta = 2`, `k = 1`. -/
theorem local_response_norm_divisor_pos_witness :
    ∃ Dv out : Tensor ℚ, detail.lrn_div ⟨[1, 4, 2], [1, -2, 3, 4, -5, 6, 7, 8]⟩ 2 = .ok Dv ∧
      detail.local_response_norm ratEngine ⟨[1, 4, 2], [1, -2, 3, 4, -5, 6, 7, 8]⟩ 2 1 2 1
        = .ok out ∧
      (1 : ℚ) ≤ Dv.elem [0, 2, 0] * 1 + 1 ∧
      |out.elem [0, 2, 0]| ≤ |(⟨[1, 4, 2], [1, -2, 3, 4, -5, 6, 7, 8]⟩ : Tensor ℚ).elem [0, 2, 0]| :=
  let ⟨Dv, out, h1, h2, h3⟩ :=
    local_response_norm_divisor_pos ratEngine ⟨[1, 4, 2], [1, -2, 3, 4, -5, 6, 7, 8]⟩ 2 1 2 1
      (by decide) (by decide) (by decide!) (by decide!)
      (fun a ha => by
        have h : ratEngine.pow a 2 = a * a := by simp [ratEngine, zpow_two]
        rw [h]; exact mul_pos ha ha)
      (fun _ a ha => by
        have h : ratEngine.pow a 2 = a * a := by simp [ratEngine, zpow_two]
        rw [h]; exact one_le_mul_of_one_le_of_one_le ha ha)
  ⟨Dv, out, h1, h2, (h3 [0, 2, 0] (by decide)).2.1,
    (h3 [0, 2, 0] (by decide)).2.2.2.2.2 (by decide!) (by decide!)⟩

end Properties

end Torch
